import Mathlib

/-!
Punygen: homoglyph substitution engine.

A shallow embedding of `punygen.go` and the properties of its combination
enumerator.

Conventions of the embedding.

* A Go `string` holding valid UTF-8 is a `String`; `[]rune(s)` is `s.data`,
  `string(r)` for a rune `r` is `String.singleton r`, so `current + string(r)`
  is `current.push r`, and `len(s)` is `s.utf8ByteSize`.
* A `rune` is a `Char`: every rune met by the program comes from a `[]rune`
  conversion, from the table, or from a single byte, and is a Unicode scalar.
* Go `int` is the 64-bit two's-complement integer; arithmetic that can leave
  the range is wrapped explicitly with `wrapInt`.
* `idna.ToASCII` is an external collaborator: a parameter
  `toASCII : String → Option String`, `none` standing for a non-nil error.
* The pointers `count`, `results`, `firstResult` threaded through the
  recursion, together with the text written to standard output, form the
  record `GenState`. Its field `encoderCalls` is ghost state: the arguments
  on which `encodePunycode` has been invoked, in order.
-/

namespace Punygen

/-! ## The substitution table (punygen.go, lines 30-57) -/

/-- The table `homoglyphs`: `homoglyphs[c]` with its `exists` flag. -/
def homoglyphs : Char → Option (List Char)
  | 'a' => some ['à', 'á', 'â', 'ã', 'ä', 'å', 'ɑ', 'А', 'Α', 'Ꭺ', 'Ａ', '𝔄', '𝕬', '𝒜', '𝐀', '𝐴', '𝘈', '𝙰', '𝖠', '𝗔', '𝘼', '𝚨', '𝑨', 'ⓐ', 'Ⓐ', '🅐', '🅰', '𝔞', '𝖆', '𝒶', '𝗮', '𝘢', 'ā', 'ă', 'ą', 'ȃ', 'ȧ', 'ạ', 'ả', 'ấ', 'ầ', 'ẩ', 'ẫ', 'ậ', 'ắ', 'ằ', 'ẳ', 'ẵ', 'ặ']
  | 'b' => some ['Ь', 'Ꮟ', 'Ƅ', 'ᖯ', '𝐛', '𝑏', '𝒃', '𝓫', '𝔟', '𝕓', '𝖇', '𝗯', '𝘣', '𝙗', '𝚋', 'ƀ', 'ɓ', 'ḃ', 'ḅ', 'ḇ', 'Ḃ', 'Ḅ', 'Ḇ', 'Ɓ', 'Ƃ', 'ƃ']
  | 'c' => some ['ϲ', 'с', 'ƈ', 'ȼ', 'ḉ', 'ⲥ', '𝐜', '𝑐', '𝒄', '𝓬', '𝔠', '𝕔', '𝖈', '𝗰', '𝘤', '𝙘', '𝚌', 'ć', 'ĉ', 'ċ', 'č', 'ç', 'ḉ', 'ć', 'Ć', 'Ĉ', 'Ċ', 'Č', 'Ç', 'Ḉ', 'Ȼ']
  | 'd' => some ['ԁ', 'ժ', 'Ꮷ', '𝐝', '𝑑', '𝒅', '𝓭', '𝔡', '𝕕', '𝖉', '𝗱', '𝘥', '𝙙', '𝚍', 'ď', 'đ', 'ḋ', 'ḍ', 'ḏ', 'ḑ', 'ḓ', 'Ď', 'Đ', 'Ḋ', 'Ḍ', 'Ḏ', 'Ḑ', 'Ḓ', 'ƌ', 'ɖ', 'ɗ']
  | 'e' => some ['е', 'ҽ', '℮', 'ḛ', 'ḝ', 'ẹ', 'é', 'è', 'ê', 'ë', 'ē', 'ė', 'ę', '𝐞', '𝑒', '𝒆', '𝓮', '𝔢', '𝕖', '𝖊', '𝗲', '𝘦', '𝙚', '𝚎', 'ĕ', 'ę', 'ė', 'ě', 'ȅ', 'ȇ', 'ȩ', 'ḕ', 'ḗ', 'ḙ', 'ḛ', 'ḝ', 'ẽ', 'ẻ', 'ế', 'ề', 'ể', 'ễ', 'ệ']
  | 'f' => some ['ғ', '𝐟', '𝑓', '𝒇', '𝓯', '𝔣', '𝕗', '𝖋', '𝗳', '𝘧', '𝙛', '𝚏', 'ḟ', 'Ḟ', 'ƒ', 'Ƒ', 'ꜰ']
  | 'g' => some ['ɡ', 'ց', '𝐠', '𝑔', '𝒈', '𝓰', '𝔤', '𝕘', '𝖌', '𝗴', '𝘨', '𝙜', '𝚐', 'ĝ', 'ğ', 'ġ', 'ģ', 'ǧ', 'ǵ', 'ḡ', 'Ĝ', 'Ğ', 'Ġ', 'Ģ', 'Ǧ', 'Ǵ', 'Ḡ', 'ƍ', 'ɠ']
  | 'h' => some ['һ', 'հ', 'Ꮒ', 'ℎ', '𝐡', '𝒉', '𝒽', '𝓱', '𝔥', '𝕙', '𝖍', '𝗵', '𝘩', '𝙝', '𝚑', 'ĥ', 'ħ', 'ȟ', 'ḣ', 'ḥ', 'ḧ', 'ḩ', 'ḫ', 'Ĥ', 'Ħ', 'Ȟ', 'Ḣ', 'Ḥ', 'Ḧ', 'Ḩ', 'Ḫ', 'ƕ']
  | 'i' => some ['і', 'ɩ', 'Ꭵ', 'Ⅰ', 'ı', 'í', 'ì', 'î', 'ï', 'ī', 'į', '𝐢', '𝑖', '𝒊', '𝓲', '𝔦', '𝕚', '𝖎', '𝗶', '𝘪', '𝙞', '𝚒', 'ĩ', 'ĭ', 'į', 'ı', 'ǐ', 'ȉ', 'ȋ', 'ḭ', 'ḯ', 'ỉ', 'ị', 'İ', 'Ì', 'Í', 'Î', 'Ï', 'Ĩ', 'Ī', 'Ĭ', 'Į', 'Ǐ', 'Ȉ', 'Ȋ', 'Ḭ', 'Ḯ', 'Ỉ', 'Ị']
  | 'j' => some ['ј', 'ʝ', 'ϳ', '𝐣', '𝑗', '𝒋', '𝓳', '𝔧', '𝕛', '𝖏', '𝗷', '𝘫', '𝙟', '𝚓', 'ĵ', 'ǰ', 'Ĵ', 'ȷ', 'ɉ']
  | 'k' => some ['κ', '𝐤', '𝑘', '𝒌', '𝓴', '𝔨', '𝕜', '𝖐', '𝗸', '𝘬', '𝙠', '𝚔', 'ķ', 'ǩ', 'ḱ', 'ḳ', 'ḵ', 'Ķ', 'Ǩ', 'Ḱ', 'Ḳ', 'Ḵ', 'ƙ', 'ɨ']
  | 'l' => some ['ⅼ', 'ӏ', 'Ɩ', 'ʟ', '𝐥', '𝑙', '𝒍', '𝓵', '𝔩', '𝕝', '𝖑', '𝗹', '𝘭', '𝙡', '𝚕', 'ĺ', 'ļ', 'ľ', 'ŀ', 'ł', 'ḷ', 'ḹ', 'ḻ', 'ḽ', 'Ĺ', 'Ļ', 'Ľ', 'Ŀ', 'Ł', 'Ḷ', 'Ḹ', 'Ḻ', 'Ḽ', 'ƚ', 'ȴ']
  | 'm' => some ['м', 'ṃ', 'ᴍ', '𝐦', '𝑚', '𝒎', '𝓶', '𝔪', '𝕞', '𝖒', '𝗺', '𝘮', '𝙢', '𝚖', 'ḿ', 'ṁ', 'ṁ', 'ṃ', 'Ḿ', 'Ṁ', 'Ṃ', 'ɱ']
  | 'n' => some ['ո', 'п', 'ռ', 'ṅ', 'ṇ', 'ṋ', '𝐧', '𝑛', '𝒏', '𝓷', '𝔫', '𝕟', '𝖓', '𝗻', '𝘯', '𝙣', '𝚗', 'ń', 'ņ', 'ň', 'ǹ', 'ṅ', 'ṇ', 'ṉ', 'ṋ', 'Ń', 'Ņ', 'Ň', 'Ǹ', 'Ṅ', 'Ṇ', 'Ṉ', 'Ṋ', 'ƞ', 'ɲ', 'ŋ']
  | 'o' => some ['ο', 'օ', 'ӧ', 'ö', 'ó', 'ò', 'ô', 'õ', 'ō', 'ő', 'ⲟ', '𝐨', '𝑜', '𝓸', '𝔬', '𝕠', '𝖔', '𝗼', '𝘰', '𝙤', '𝚬', 'ŏ', 'ő', 'ơ', 'ǒ', 'ǫ', 'ǭ', 'ǿ', 'ȍ', 'ȏ', 'ȫ', 'ȭ', 'ȯ', 'ȱ', 'ṍ', 'ṏ', 'ṑ', 'ṓ', 'ọ', 'ỏ', 'ố', 'ồ', 'ổ', 'ỗ', 'ộ', 'ớ', 'ờ', 'ở', 'ỡ', 'ợ']
  | 'p' => some ['р', 'ρ', '⍴', '𝐩', '𝑝', '𝒑', '𝓹', '𝔭', '𝕡', '𝖕', '𝗽', '𝘱', '𝙥', '𝚭', 'ṕ', 'ṗ', 'Ṕ', 'Ṗ', 'ƥ', 'ƿ']
  | 'q' => some ['զ', 'ԛ', 'գ', '𝐪', '𝑞', '𝒒', '𝓺', '𝔮', '𝕢', '𝖖', '𝗾', '𝘲', '𝙦', '𝚞', 'ʠ']
  | 'r' => some ['ᴦ', 'г', 'ř', 'ȓ', 'ṛ', 'ⲅ', '𝐫', '𝑟', '𝒓', '𝓻', '𝔯', '𝕣', '𝖗', '𝗿', '𝘳', '𝙧', '𝚛', 'ŕ', 'ŗ', 'ř', 'ȑ', 'ȓ', 'ṙ', 'ṛ', 'ṝ', 'ṟ', 'Ŕ', 'Ŗ', 'Ř', 'Ȑ', 'Ȓ', 'Ṙ', 'Ṛ', 'Ṝ', 'Ṟ', 'ɍ', 'ɽ', 'ɾ', 'ɿ']
  | 's' => some ['ѕ', 'ʂ', 'ṡ', 'ṣ', '𝐬', '𝑠', '𝒔', '𝓼', '𝔰', '𝕤', '𝖘', '𝘴', '𝙨', '𝚜', 'ś', 'ŝ', 'ş', 'š', 'ș', 'ṡ', 'ṣ', 'ṥ', 'ṧ', 'ṩ', 'Ś', 'Ŝ', 'Ş', 'Š', 'Ș', 'Ṡ', 'Ṣ', 'Ṥ', 'Ṧ', 'Ṩ', 'ƨ', 'ʃ']
  | 't' => some ['т', 'τ', 'ṭ', 'ț', 'ⲧ', '𝐭', '𝑡', '𝒕', '𝓽', '𝔱', '𝕥', '𝖙', '𝘵', '𝙩', '𝚝', 'ţ', 'ť', 'ŧ', 'ț', 'ṫ', 'ṭ', 'ṯ', 'ṱ', 'Ţ', 'Ť', 'Ŧ', 'Ț', 'Ṫ', 'Ṭ', 'Ṯ', 'Ṱ', 'ƚ', 'ƭ', 'ʇ']
  | 'u' => some ['υ', 'ս', 'ü', 'ú', 'ù', 'û', 'ū', 'ⲩ', '𝐮', '𝑢', '𝒖', '𝓾', '𝔲', '𝕦', '𝖚', '𝘶', '𝙪', '𝚞', 'ŭ', 'ů', 'ű', 'ų', 'ư', 'ǔ', 'ǖ', 'ǘ', 'ǚ', 'ǜ', 'ȕ', 'ȗ', 'ṳ', 'ṵ', 'ṷ', 'ṹ', 'ṻ', 'ụ', 'ủ', 'ứ', 'ừ', 'ử', 'ữ', 'ự']
  | 'v' => some ['ν', 'ѵ', 'ⴸ', '𝐯', '𝑣', '𝒗', '𝓿', '𝔳', '𝕧', '𝖛', '𝗏', '𝘷', '𝙫', '𝚟', 'ṽ', 'ṿ', 'Ṽ', 'Ṿ', 'ʋ', 'ʌ']
  | 'w' => some ['ԝ', 'ա', 'ѡ', 'ⲱ', '𝐰', '𝑤', '𝒘', '𝔀', '𝕨', '𝖜', '𝗐', '𝘸', '𝙬', '𝚠', 'ŵ', 'ẁ', 'ẃ', 'ẅ', 'ẇ', 'ẉ', 'ẘ', 'Ŵ', 'Ẁ', 'Ẃ', 'Ẅ', 'Ẇ', 'Ẉ', 'ƺ']
  | 'x' => some ['х', 'ҳ', 'ӿ', '𝐱', '𝑥', '𝒙', '𝔁', '𝕩', '𝖝', '𝗑', '𝘹', '𝙭', '𝚡', 'ẋ', 'ẍ', 'Ẋ', 'Ẍ']
  | 'y' => some ['у', 'ү', 'ӯ', 'ý', 'ÿ', 'ⲩ', '𝐲', '𝑦', '𝒚', '𝔂', '𝕪', '𝖞', '𝗒', '𝘺', '𝙮', '𝚢', 'ŷ', 'ȳ', 'ẏ', 'ỳ', 'ỵ', 'ỷ', 'ỹ', 'Ŷ', 'Ý', 'Ÿ', 'Ȳ', 'Ẏ', 'Ỳ', 'Ỵ', 'Ỷ', 'Ỹ', 'ƴ']
  | 'z' => some ['ᴢ', 'ż', 'ź', 'ž', '𝐳', '𝑧', '𝒛', '𝔃', '𝕫', '𝖟', '𝗓', '𝘻', '𝙯', '𝚣', 'ź', 'ż', 'ž', 'ẑ', 'ẓ', 'ẕ', 'Ź', 'Ż', 'Ž', 'Ẑ', 'Ẓ', 'Ẕ', 'ƶ', 'ȥ', 'ɀ']
  | _ => none

/-! ## External collaborators -/

/-- Go `unicode.ToLower`. The ASCII branch is the one of the standard library
(`if 'A' <= r && r <= 'Z' { r += 'a' - 'A' }`); for a rune above `MaxASCII`
the library consults its case tables, here the parameter `caseTable`. -/
def unicodeToLower (caseTable : Char → Char) (r : Char) : Char :=
  if r.toNat ≤ 0x7F then
    if 'A'.toNat ≤ r.toNat ∧ r.toNat ≤ 'Z'.toNat then Char.ofNat (r.toNat + ('a'.toNat - 'A'.toNat))
    else r
  else caseTable r

/-- Go `strings.ToLower` on a valid UTF-8 string: `unicode.ToLower` applied to
every rune. -/
def stringsToLower (caseTable : Char → Char) (s : String) : String :=
  ⟨s.data.map (unicodeToLower caseTable)⟩

/-- `encodePunycode` (lines 326-332): the encoded label, or `""` when
`idna.ToASCII` returns an error. -/
def encodePunycode (toASCII : String → Option String) (s : String) : String :=
  match toASCII s with
  | none => ""
  | some encoded => encoded

/-! ## Machine integers -/

/-- Two's-complement wrap-around of a Go `int` (64 bits). -/
def wrapInt (x : Int) : Int :=
  (x + 2 ^ 63) % 2 ^ 64 - 2 ^ 63

/-! ## The combination enumerator (lines 236-324) -/

/-- The mutable state shared by one enumeration: `*count`, `*results`,
`*firstResult`, the chunks written to standard output (one per `fmt` call),
and the ghost trace of the strings handed to `encodePunycode`. -/
structure GenState where
  count : Int
  results : List String
  firstResult : Bool
  stdout : List String
  encoderCalls : List String
deriving DecidableEq, Repr

/-- Lines 298-311: the body of `if punycode != ""` at a completed candidate. -/
def emitResult (format current punycode : String) (st : GenState) : GenState :=
  let st := { st with count := st.count + 1 }
  let st :=
    if format = "json" then
      let st := if !st.firstResult then { st with stdout := st.stdout ++ [",\n"] } else st
      { st with firstResult := false, stdout := st.stdout ++ ["    \"" ++ punycode ++ "\""] }
    else if format = "detailed" then
      { st with stdout := st.stdout ++ [current ++ " -> " ++ punycode ++ "\n"] }
    else
      { st with stdout := st.stdout ++ [punycode ++ "\n"] }
  { st with results := st.results ++ [punycode] }

/-- Lines 296-313: the body of `if pos == len(chars)`. -/
def encodeCandidate (toASCII : String → Option String) (format current : String)
    (st : GenState) : GenState :=
  let punycode := encodePunycode toASCII current
  let st := { st with encoderCalls := st.encoderCalls ++ [current] }
  if punycode ≠ "" then emitResult format current punycode st else st

/-- `generateCombinations` (lines 290-324). The result is `none` when the Go
code would panic on `chars[pos]` (only possible for `pos > len(chars)`). -/
def generateCombinations (toASCII : String → Option String) (chars : List Char) (pos : Nat)
    (current format : String) (maxCombinations : Int) (st : GenState) : Option GenState :=
  if st.count ≥ maxCombinations then
    some st
  else if pos = chars.length then
    some (encodeCandidate toASCII format current st)
  else if h : pos < chars.length then
    let char := chars[pos]
    match generateCombinations toASCII chars (pos + 1) (current.push char) format
        maxCombinations st with
    | none => none
    | some st1 =>
      match homoglyphs char with
      | some variants =>
        variants.foldlM
          (fun s variant =>
            generateCombinations toASCII chars (pos + 1) (current.push variant) format
              maxCombinations s)
          st1
      | none => some st1
  else
    none
termination_by chars.length - pos

/-- Lines 240-245: `totalCombinations`, multiplied position by position in a
Go `int`. -/
def totalCombinations (chars : List Char) : Int :=
  chars.foldl
    (fun total char =>
      match homoglyphs char with
      | some variants => wrapInt (total * ((variants.length : Int) + 1))
      | none => total)
    1

/-- What one call of `generateWordVariants` has written and computed. -/
structure WordRun where
  stderr : List String
  stdout : List String
  totalCombinations : Int
  count : Int
  results : List String
  encoderCalls : List String
deriving DecidableEq, Repr

/-- The forty `=` signs followed by a newline (lines 263-266 and alike). -/
def rule : List String :=
  List.replicate 40 "=" ++ ["\n"]

/-- `generateWordVariants` (lines 236-288). -/
def generateWordVariants (toASCII : String → Option String) (caseTable : Char → Char)
    (word format : String) (maxCombinations : Int) : Option WordRun :=
  let wordLower := stringsToLower caseTable word
  let chars := wordLower.data
  let total := totalCombinations chars
  let stderr :=
    if total > maxCombinations then
      ["Warning: " ++ toString total ++ " total combinations possible, limiting to "
        ++ toString maxCombinations ++ "\n"]
    else []
  let header :=
    if format = "json" then
      ["\x7b\n", "  \"word\": \"" ++ word ++ "\",\n", "  \"variants\": [\n"]
    else if format = "detailed" then
      ["Punycode variants for word: '" ++ word ++ "'\n"] ++ rule
        ++ ["Generating up to " ++ toString maxCombinations ++ " combinations from "
              ++ toString total ++ " total possible\n"]
        ++ rule
    else []
  match generateCombinations toASCII chars 0 "" format maxCombinations
      { count := 0, results := [], firstResult := true, stdout := header, encoderCalls := [] } with
  | none => none
  | some st =>
    let footer :=
      if format = "json" then
        ["  ],\n", "  \"total\": " ++ toString st.count ++ "\n\x7d\n"]
      else if format = "detailed" then
        rule ++ ["Total combinations: " ++ toString st.count ++ "\n"]
      else []
    some
      { stderr := stderr
        stdout := st.stdout ++ footer
        totalCombinations := total
        count := st.count
        results := st.results
        encoderCalls := st.encoderCalls }

/-! ## Single-letter variants (lines 179-234) -/

/-- The struct `Variant` (lines 15-18). -/
structure Variant where
  Glyph : String
  Punycode : String
deriving DecidableEq, Repr

/-- The struct `LetterOutput` (lines 20-23). -/
structure LetterOutput where
  Letter : String
  Variants : List Variant
deriving DecidableEq, Repr

/-- First byte of the UTF-8 encoding of a code point. -/
def utf8LeadByte (c : Char) : Nat :=
  if c.toNat < 0x80 then c.toNat
  else if c.toNat < 0x800 then 0xC0 + c.toNat / 0x40
  else if c.toNat < 0x10000 then 0xE0 + c.toNat / 0x1000
  else 0xF0 + c.toNat / 0x40000

/-- The byte `s[0]` of a Go string; `none` is the index-out-of-range panic. -/
def byteZero (s : String) : Option Nat :=
  match s.data with
  | [] => none
  | c :: _ => some (utf8LeadByte c)

/-- What one call of `generateLetterVariants` has written. In the `json`
format the value handed to `json.MarshalIndent` and printed is `json`. -/
structure LetterRun where
  stderr : List String
  stdout : List String
  json : Option LetterOutput
deriving DecidableEq, Repr

/-- `generateLetterVariants` (lines 179-234). -/
def generateLetterVariants (toASCII : String → Option String) (caseTable : Char → Char)
    (letter format : String) : Option LetterRun :=
  if letter.utf8ByteSize = 0 then
    some { stderr := ["Error: Empty letter provided\n"], stdout := [], json := none }
  else
    match byteZero letter with
    | none => none
    | some b =>
      let letterRune := unicodeToLower caseTable (Char.ofNat b)
      match homoglyphs letterRune with
      | none =>
        some
          { stderr := ["No homoglyphs found for letter: " ++ String.singleton letterRune ++ "\n"]
            stdout := []
            json := none }
      | some variants =>
        if format = "json" then
          let output : LetterOutput :=
            { Letter := String.singleton letterRune
              Variants :=
                variants.foldl
                  (fun out variant =>
                    out ++ [{ Glyph := String.singleton variant
                              Punycode := encodePunycode toASCII (String.singleton variant) }])
                  [] }
          some { stderr := [], stdout := [], json := some output }
        else if format = "detailed" then
          let lines :=
            variants.map fun variant =>
              let punycode := encodePunycode toASCII (String.singleton variant)
              if punycode ≠ "" then String.singleton variant ++ " -> " ++ punycode ++ "\n"
              else String.singleton variant ++ " -> [ENCODING FAILED]\n"
          some
            { stderr := []
              stdout :=
                ["Punycode variants for letter: '" ++ String.singleton letterRune ++ "'\n"]
                  ++ rule ++ lines ++ rule
                  ++ ["Total variants: " ++ toString variants.length ++ "\n"]
              json := none }
        else
          some
            { stderr := []
              stdout :=
                variants.filterMap fun variant =>
                  let punycode := encodePunycode toASCII (String.singleton variant)
                  if punycode ≠ "" then some (punycode ++ "\n") else none
              json := none }

/-! ## Specification-side definitions -/

/-- The choice list of one position, in the order the traversal explores it:
the original character, then the table alternatives in stored order. -/
def choices (c : Char) : List Char :=
  c :: (match homoglyphs c with
        | some variants => variants
        | none => [])

/-- Cartesian product of a list of choice lists in lexicographic order, the
first list most significant (so the last one varies fastest). -/
def cartesian : List (List Char) → List (List Char)
  | [] => [[]]
  | l :: ls => l.flatMap fun x => (cartesian ls).map fun t => x :: t

/-- The full substitution cross-product of a word, as strings. -/
def candidates (chars : List Char) : List String :=
  (cartesian (chars.map choices)).map String.mk

/-- The cross-product of the positions `rest` still to decide, each candidate
extending the text `current` already built. -/
def candidatesFrom (rest : List Char) (current : String) : List String :=
  (cartesian (rest.map choices)).map fun t => (⟨current.data ++ t⟩ : String)

/-- TotalCombinationCount of the specification: the exact product over the
positions of `1 + number of table alternatives`, a position without a table
entry contributing the factor 1. -/
def totalCombinationCount (chars : List Char) : Nat :=
  (chars.map fun c =>
    match homoglyphs c with
    | some variants => 1 + variants.length
    | none => 1).prod

/-- The keys of the table. -/
def tableKeys : List Char :=
  ['a', 'b', 'c', 'd', 'e', 'f', 'g', 'h', 'i', 'j', 'k', 'l', 'm', 'n', 'o', 'p', 'q', 'r', 's',
    't', 'u', 'v', 'w', 'x', 'y', 'z']

/-- The keys whose row lists some alternative twice. -/
def keysWithRepeats : List Char :=
  ['c', 'e', 'i', 'm', 'n', 'o', 'r', 's', 't', 'z']

/-- The successful encodings of a list of candidates, in order. -/
def successes (toASCII : String → Option String) (cs : List String) : List String :=
  (cs.map (encodePunycode toASCII)).filter fun p => p ≠ ""

/-- The soft filter: every candidate of the cross-product encoded in traversal
order, the successful encodings kept. -/
def successfulEncodings (toASCII : String → Option String) (chars : List Char) : List String :=
  successes toASCII (candidates chars)

/-- The candidates of `cs` up to and including the one with the `k`-th
successful encoding (all of `cs` when fewer than `k` succeed). -/
def visitedUpTo (toASCII : String → Option String) : Nat → List String → List String
  | _, [] => []
  | 0, _ :: _ => []
  | k + 1, c :: cs =>
    c :: visitedUpTo toASCII (if encodePunycode toASCII c ≠ "" then k else k + 1) cs

/-- One call of `generateCombinations` at a completed candidate
(`pos == len(chars)`): the cap check, then the encoding. -/
def visit (toASCII : String → Option String) (format : String) (maxCombinations : Int)
    (st : GenState) (candidate : String) : GenState :=
  if st.count ≥ maxCombinations then st else encodeCandidate toASCII format candidate st

/-! ## The command line (lines 59-161) -/

/-- `getStringFlag` (lines 145-150). -/
def getStringFlag (short long : String) : String :=
  if short ≠ "" then short else long

/-- `getBoolFlag` (lines 152-154). -/
def getBoolFlag (short long : Bool) : Bool :=
  short || long

/-- `getIntFlag` (lines 156-161). -/
def getIntFlag (short long : Int) : Int :=
  if short ≠ 1000 then short else long

/-- The values of the twelve flag variables after `flag.Parse()` (lines 60-71
and 100). A flag that does not occur on the command line holds its default:
`""` for the strings other than `format` and `formatFlag`, `"simple"` for
these two, `false` for the booleans and `1000` for the two integers. -/
structure Flags where
  letter : String
  letterFlag : String
  word : String
  wordFlag : String
  stdin : Bool
  stdinFlag : Bool
  format : String
  formatFlag : String
  maxCombinations : Int
  maxFlag : Int
  help : Bool
  helpFlag : Bool
deriving DecidableEq, Repr

/-- The flag values of a command line without any flag. -/
def defaultFlags : Flags :=
  { letter := "", letterFlag := "", word := "", wordFlag := "", stdin := false, stdinFlag := false,
    format := "simple", formatFlag := "simple", maxCombinations := 1000, maxFlag := 1000,
    help := false, helpFlag := false }

/-- The text written by `flag.Usage` (lines 73-98), one chunk per `Fprintf`;
`arg0` is `os.Args[0]`. -/
def usage (arg0 : String) : List String :=
  ["Punycode Homoglyph Generator by @1hehaq\n\n",
   "Generate punycode variants of homoglyphs for wordlist generation.\n\n",
   "USAGE:\n",
   "  " ++ arg0 ++ " [OPTIONS]\n\n",
   "OPTIONS:\n",
   "  -l, --letter string    Single letter to generate variants for\n",
   "  -w, --word string      Word to generate all possible homoglyph combinations for\n",
   "  -s, --stdin            Read input from stdin\n",
   "  -f, --format string    Output format: simple, detailed, json (default \"simple\")\n",
   "  -m, --max int          Maximum number of combinations to generate for words (default 1000)\n",
   "  -h, --help             Show this help message\n\n",
   "FORMATS:\n",
   "  simple       Just the punycode results (default)\n",
   "  detailed     Pretty formatted with headers and counts\n",
   "  json         Structured JSON output\n\n",
   "SUPPORTED CHARACTERS:\n",
   "  a-z (lowercase letters with extensive Unicode homoglyph support)\n",
   "  Includes: Cyrillic, Greek, Armenian, Mathematical symbols, Accented characters, Regional variants, and more\n\n"]

/-- A handler invoked by `main`, with its arguments (lines 136-142). -/
inductive HandlerCall where
  | handleStdin (format : String) (maxCombinations : Int)
  | generateLetterVariants (letter format : String)
  | generateWordVariants (word format : String) (maxCombinations : Int)
deriving DecidableEq, Repr

/-- What `main` itself does: the text it writes to the error stream, the
status of its `os.Exit` call if it makes one, and the handler it invokes. -/
structure MainRun where
  stderr : List String
  exitStatus : Option Int
  call : Option HandlerCall
deriving DecidableEq, Repr

/-- `main` after `flag.Parse()` (lines 102-142). -/
def main (arg0 : String) (flags : Flags) : MainRun :=
  if flags.help || flags.helpFlag then
    { stderr := usage arg0, exitStatus := some 0, call := none }
  else
    let letterInput := getStringFlag flags.letter flags.letterFlag
    let wordInput := getStringFlag flags.word flags.wordFlag
    let stdinInput := getBoolFlag flags.stdin flags.stdinFlag
    let formatInput := getStringFlag flags.format flags.formatFlag
    let maxInput := getIntFlag flags.maxCombinations flags.maxFlag
    let flagCount : Nat := 0
    let flagCount := if letterInput ≠ "" then flagCount + 1 else flagCount
    let flagCount := if wordInput ≠ "" then flagCount + 1 else flagCount
    let flagCount := if stdinInput then flagCount + 1 else flagCount
    if flagCount = 0 then
      { stderr := ["Error: Please provide input via -l, -w, or -s\n\n"] ++ usage arg0
        exitStatus := some 1
        call := none }
    else if flagCount > 1 then
      { stderr := ["Error: Only one input method allowed at a time\n\n"] ++ usage arg0
        exitStatus := some 1
        call := none }
    else if stdinInput then
      { stderr := [], exitStatus := none, call := some (.handleStdin formatInput maxInput) }
    else if letterInput ≠ "" then
      { stderr := [], exitStatus := none
        call := some (.generateLetterVariants letterInput formatInput) }
    else if wordInput ≠ "" then
      { stderr := [], exitStatus := none
        call := some (.generateWordVariants wordInput formatInput maxInput) }
    else
      { stderr := [], exitStatus := none, call := none }

/-- The number of input-selection methods that are active after the flags are
resolved (lines 113-122): letter non-empty, word non-empty, stdin set. -/
def activeMethods (flags : Flags) : Nat :=
  (if getStringFlag flags.letter flags.letterFlag ≠ "" then 1 else 0)
    + (if getStringFlag flags.word flags.wordFlag ≠ "" then 1 else 0)
    + (if getBoolFlag flags.stdin flags.stdinFlag = true then 1 else 0)

/-! ## Line-oriented input (lines 163-177) -/

/-- Go `unicode.IsSpace`. The Latin-1 branch is the `switch` of the standard
library; above `MaxLatin1` the library consults its `White_Space` table, here
the parameter `whiteSpace`. -/
def unicodeIsSpace (whiteSpace : Char → Bool) (r : Char) : Bool :=
  if r.toNat ≤ 0xFF then
    r.toNat = 0x09 || r.toNat = 0x0A || r.toNat = 0x0B || r.toNat = 0x0C || r.toNat = 0x0D
      || r.toNat = 0x20 || r.toNat = 0x85 || r.toNat = 0xA0
  else whiteSpace r

/-- Go `strings.TrimSpace` on a valid UTF-8 string: leading and trailing white
space removed. -/
def stringsTrimSpace (whiteSpace : Char → Bool) (s : String) : String :=
  ⟨((s.data.dropWhile (unicodeIsSpace whiteSpace)).reverse.dropWhile
      (unicodeIsSpace whiteSpace)).reverse⟩

/-- The handler run for one input line, with the trimmed line it received. -/
inductive LineRun where
  | letter (input : String) (run : LetterRun)
  | word (input : String) (run : WordRun)
deriving DecidableEq, Repr

/-- What one call of `handleStdin` has done: the handler runs in input order,
the text it wrote itself to the error stream, and the status of its `os.Exit`
call if it made one. -/
structure StdinRun where
  lines : List LineRun
  stderr : List String
  exitStatus : Option Int
deriving DecidableEq, Repr

/-- The loop `for scanner.Scan()` (lines 165-172) over the successive values
of `scanner.Text()`. -/
def scanLoop (toASCII : String → Option String) (caseTable : Char → Char)
    (whiteSpace : Char → Bool) (format : String) (maxCombinations : Int) :
    List String → Option (List LineRun)
  | [] => some []
  | text :: rest =>
    let input := stringsTrimSpace whiteSpace text
    if input.utf8ByteSize = 1 then
      match generateLetterVariants toASCII caseTable input format with
      | none => none
      | some run =>
        (scanLoop toASCII caseTable whiteSpace format maxCombinations rest).map fun runs =>
          LineRun.letter input run :: runs
    else if input.utf8ByteSize > 0 then
      match generateWordVariants toASCII caseTable input format maxCombinations with
      | none => none
      | some run =>
        (scanLoop toASCII caseTable whiteSpace format maxCombinations rest).map fun runs =>
          LineRun.word input run :: runs
    else
      scanLoop toASCII caseTable whiteSpace format maxCombinations rest

/-- `handleStdin` (lines 163-177). `scanned` are the successive values of
`scanner.Text()` and `scanErr` is the message of `scanner.Err()` when it is
not nil. -/
def handleStdin (toASCII : String → Option String) (caseTable : Char → Char)
    (whiteSpace : Char → Bool) (format : String) (maxCombinations : Int)
    (scanned : List String) (scanErr : Option String) : Option StdinRun :=
  match scanLoop toASCII caseTable whiteSpace format maxCombinations scanned with
  | none => none
  | some runs =>
    match scanErr with
    | some err =>
      some { lines := runs, stderr := ["Error reading input: " ++ err ++ "\n"],
             exitStatus := some 1 }
    | none => some { lines := runs, stderr := [], exitStatus := none }

/-! ## Specification-side definitions for the output of a word run -/

/-- The chunks written for one emitted result (lines 299-310); `first` is the
value of `*firstResult` before the result. -/
def resultChunks (format : String) (first : Bool) (current punycode : String) : List String :=
  if format = "json" then
    (if first then [] else [",\n"]) ++ ["    \"" ++ punycode ++ "\""]
  else if format = "detailed" then
    [current ++ " -> " ++ punycode ++ "\n"]
  else
    [punycode ++ "\n"]

/-- The chunks written for a sequence of emitted results, each given as the
pair of the candidate and its encoding. -/
def renderResults (format : String) : Bool → List (String × String) → List String
  | _, [] => []
  | first, (current, punycode) :: rest =>
    resultChunks format first current punycode ++ renderResults format false rest

/-- Whether a chunk of standard output is a result item: in the `json` format
every chunk but the separator `",\n"`, in the other formats every chunk. -/
def isResultItem (format chunk : String) : Bool :=
  if format = "json" then chunk ≠ ",\n" else true

/-- What `generateWordVariants` writes before the traversal (lines 256-273). -/
def wordHeader (word format : String) (maxCombinations total : Int) : List String :=
  if format = "json" then
    ["\x7b\n", "  \"word\": \"" ++ word ++ "\",\n", "  \"variants\": [\n"]
  else if format = "detailed" then
    ["Punycode variants for word: '" ++ word ++ "'\n"] ++ rule
      ++ ["Generating up to " ++ toString maxCombinations ++ " combinations from "
            ++ toString total ++ " total possible\n"]
      ++ rule
  else []

/-- What `generateWordVariants` writes after the traversal (lines 277-287),
`count` being the trailing total. -/
def wordFooter (format : String) (count : Int) : List String :=
  if format = "json" then
    ["  ],\n", "  \"total\": " ++ toString count ++ "\n\x7d\n"]
  else if format = "detailed" then
    rule ++ ["Total combinations: " ++ toString count ++ "\n"]
  else []

/-- The invariant of the running count: the state holds one result per
emitted pair, the count is their number, standard output is the text `before`
followed by exactly the chunks of these results, and in the `json` format
`*firstResult` is still set exactly when nothing has been emitted. -/
def Consistent (format : String) (before : List String) (st : GenState) : Prop :=
  ∃ pairs : List (String × String),
    st.results = pairs.map Prod.snd
      ∧ st.count = (pairs.length : Int)
      ∧ st.stdout = before ++ renderResults format true pairs
      ∧ (format = "json" → (st.firstResult = true ↔ pairs = []))

/-! ## Concrete collaborators used to instantiate the results -/

/-- An encoder that returns a non-empty pure-ASCII label unchanged and fails
on everything else. -/
def asciiLabelEncoder (s : String) : Option String :=
  if s.data ≠ [] ∧ s.data.all (fun c => c.toNat < 0x80) then some s else none

/-- An encoder that fails on every input. -/
def failingEncoder (_ : String) : Option String :=
  none

/-- An encoder that succeeds on every input, returning it unchanged. -/
def echoEncoder (s : String) : Option String :=
  some s

/-- A case table that lower-cases the Kelvin sign U+212A to `k`, as the
Unicode case tables do, and leaves every other character unchanged. -/
def kelvinCaseTable (r : Char) : Char :=
  if r.toNat = 0x212A then 'k' else r

/-! ## The traversal as a fold over the cross-product -/

theorem foldlM_some_eq_foldl {α β : Type} (f : β → α → β) (l : List α) (b : β) :
    l.foldlM (fun s a => some (f s a)) b = some (l.foldl f b) := by
  induction l generalizing b with
  | nil => rfl
  | cons a l ih => simp [List.foldlM, ih]

theorem foldl_visit_capped (toASCII : String → Option String) (format : String) (M : Int)
    (cs : List String) (st : GenState) (h : st.count ≥ M) :
    cs.foldl (visit toASCII format M) st = st := by
  induction cs with
  | nil => rfl
  | cons c cs ih => simp [List.foldl, visit, h, ih]

theorem candidatesFrom_nil (current : String) : candidatesFrom [] current = [current] := by
  simp [candidatesFrom, cartesian]

theorem candidatesFrom_cons (c : Char) (rest : List Char) (current : String) :
    candidatesFrom (c :: rest) current
      = (choices c).flatMap fun x => candidatesFrom rest (current.push x) := by
  simp [candidatesFrom, cartesian, List.map_flatMap, List.flatMap_map, Function.comp_def]

theorem foldl_flatMap_eq {α β γ : Type} (f : γ → β → γ) (g : α → List β) (l : List α) (b : γ) :
    (l.flatMap g).foldl f b = l.foldl (fun s a => (g a).foldl f s) b := by
  induction l generalizing b with
  | nil => rfl
  | cons a l ih => simp [List.flatMap_cons, List.foldl_append, ih]

theorem generateCombinations_eq_foldl (toASCII : String → Option String) (chars : List Char)
    (format : String) (M : Int) (n : Nat) :
    ∀ (pos : Nat) (current : String) (st : GenState), pos + n = chars.length →
      generateCombinations toASCII chars pos current format M st
        = some ((candidatesFrom (chars.drop pos) current).foldl (visit toASCII format M) st) := by
  induction n with
  | zero =>
    intro pos current st h
    have hp : pos = chars.length := by omega
    rw [generateCombinations]
    subst hp
    by_cases hc : st.count ≥ M
    · simp [hc, candidatesFrom_nil, visit]
    · simp [hc, candidatesFrom_nil, visit]
  | succ n ih =>
    intro pos current st h
    have hlt : pos < chars.length := by omega
    rw [generateCombinations]
    by_cases hc : st.count ≥ M
    · simp [hc, foldl_visit_capped]
    · have hne : pos ≠ chars.length := by omega
      have hdrop : chars.drop pos = chars[pos] :: chars.drop (pos + 1) :=
        List.drop_eq_getElem_cons hlt
      simp only [hc, hne, hlt, if_false, dite_true]
      rw [ih (pos + 1) _ st (by omega), hdrop, candidatesFrom_cons, foldl_flatMap_eq]
      simp only [choices, List.foldl_cons]
      cases hh : homoglyphs chars[pos] with
      | none => simp
      | some variants =>
        simp only []
        have hf : (fun s variant =>
            generateCombinations toASCII chars (pos + 1) (current.push variant) format M s)
            = fun s variant => some
              ((candidatesFrom (chars.drop (pos + 1)) (current.push variant)).foldl
                (visit toASCII format M) s) := by
          funext s variant
          exact ih (pos + 1) _ s (by omega)
        rw [hf, foldlM_some_eq_foldl]

theorem candidatesFrom_empty (chars : List Char) : candidatesFrom chars "" = candidates chars := by
  simp [candidatesFrom, candidates]

theorem successes_cons (toASCII : String → Option String) (c : String) (cs : List String) :
    successes toASCII (c :: cs)
      = if encodePunycode toASCII c ≠ "" then encodePunycode toASCII c :: successes toASCII cs
        else successes toASCII cs := by
  by_cases h : encodePunycode toASCII c = "" <;> simp [successes, h]

theorem emitResult_count (format current punycode : String) (st : GenState) :
    (emitResult format current punycode st).count = st.count + 1 := by
  by_cases h1 : format = "json" <;> by_cases h2 : format = "detailed" <;>
    cases hf : st.firstResult <;> simp [emitResult, h1, h2, hf]

theorem emitResult_results (format current punycode : String) (st : GenState) :
    (emitResult format current punycode st).results = st.results ++ [punycode] := by
  by_cases h1 : format = "json" <;> by_cases h2 : format = "detailed" <;>
    cases hf : st.firstResult <;> simp [emitResult, h1, h2, hf]

theorem emitResult_encoderCalls (format current punycode : String) (st : GenState) :
    (emitResult format current punycode st).encoderCalls = st.encoderCalls := by
  by_cases h1 : format = "json" <;> by_cases h2 : format = "detailed" <;>
    cases hf : st.firstResult <;> simp [emitResult, h1, h2, hf]

/-- The state after folding `visit` over a list of candidates, with the
remaining budget `k = maxCombinations - count`. -/
theorem foldl_visit_spec (toASCII : String → Option String) (format : String) (M : Int)
    (cs : List String) :
    ∀ st : GenState,
      (cs.foldl (visit toASCII format M) st).results
          = st.results ++ (successes toASCII cs).take (M - st.count).toNat
        ∧ (cs.foldl (visit toASCII format M) st).count
          = st.count + (((successes toASCII cs).take (M - st.count).toNat).length : Int)
        ∧ (cs.foldl (visit toASCII format M) st).encoderCalls
          = st.encoderCalls ++ visitedUpTo toASCII (M - st.count).toNat cs := by
  induction cs with
  | nil => intro st; simp [successes, visitedUpTo]
  | cons c cs ih =>
    intro st
    by_cases hc : st.count ≥ M
    · have hk : (M - st.count).toNat = 0 := by omega
      simp [foldl_visit_capped _ _ _ _ _ hc, hk, visitedUpTo]
    · obtain ⟨k, hk⟩ : ∃ k, (M - st.count).toNat = k + 1 := ⟨(M - st.count).toNat - 1, by omega⟩
      rw [List.foldl_cons, successes_cons]
      by_cases he : encodePunycode toASCII c = ""
      · have hv : visit toASCII format M st c
            = { st with encoderCalls := st.encoderCalls ++ [c] } := by
          simp [visit, hc, encodeCandidate, he]
        have := ih (visit toASCII format M st c)
        rw [hv] at this ⊢
        simp only [] at this
        obtain ⟨h1, h2, h3⟩ := this
        refine ⟨?_, ?_, ?_⟩
        · simpa [he] using h1
        · simpa [he] using h2
        · rw [h3, hk]
          simp [visitedUpTo, he, hk]
      · have hv : visit toASCII format M st c
            = emitResult format c (encodePunycode toASCII c)
                { st with encoderCalls := st.encoderCalls ++ [c] } := by
          simp [visit, hc, encodeCandidate, he]
        have hv1 : (visit toASCII format M st c).count = st.count + 1 := by
          rw [hv, emitResult_count]
        have hv2 : (visit toASCII format M st c).results
            = st.results ++ [encodePunycode toASCII c] := by
          rw [hv, emitResult_results]
        have hv3 : (visit toASCII format M st c).encoderCalls = st.encoderCalls ++ [c] := by
          rw [hv, emitResult_encoderCalls]
        have hk2 : (M - (st.count + 1)).toNat = k := by omega
        obtain ⟨h1, h2, h3⟩ := ih (visit toASCII format M st c)
        rw [hv1, hv2, hk2] at h1
        rw [hv1, hk2] at h2
        rw [hv1, hv3, hk2] at h3
        refine ⟨?_, ?_, ?_⟩
        · rw [h1, hk]; simp [he]
        · rw [h2, hk]; simp [he]; omega
        · rw [h3, hk]; simp [visitedUpTo, he]

theorem foldl_visit_stdout_simple (toASCII : String → Option String) (format : String) (M : Int)
    (h1 : format ≠ "json") (h2 : format ≠ "detailed") (cs : List String) :
    ∀ st : GenState,
      (cs.foldl (visit toASCII format M) st).stdout
        = st.stdout
          ++ ((successes toASCII cs).take (M - st.count).toNat).map fun p => p ++ "\n" := by
  induction cs with
  | nil => intro st; simp [successes]
  | cons c cs ih =>
    intro st
    by_cases hc : st.count ≥ M
    · have hk : (M - st.count).toNat = 0 := by omega
      simp [foldl_visit_capped _ _ _ _ _ hc, hk]
    · obtain ⟨k, hk⟩ : ∃ k, (M - st.count).toNat = k + 1 := ⟨(M - st.count).toNat - 1, by omega⟩
      rw [List.foldl_cons, successes_cons, ih]
      by_cases he : encodePunycode toASCII c = ""
      · simp [visit, hc, encodeCandidate, he]
      · have hk2 : (M - (st.count + 1)).toNat = k := by omega
        simp [visit, hc, encodeCandidate, he, emitResult, h1, h2, hk, hk2]

/-- The run of `generateWordVariants` in closed form: it always returns, its
results are the first `maxCombinations` successful encodings of the
cross-product, and the encoder has seen the candidates up to the last of them. -/
theorem generateWordVariants_spec (toASCII : String → Option String) (caseTable : Char → Char)
    (word format : String) (M : Int) :
    ∃ run, generateWordVariants toASCII caseTable word format M = some run
      ∧ run.results
          = (successfulEncodings toASCII (stringsToLower caseTable word).data).take M.toNat
      ∧ run.count = (run.results.length : Int)
      ∧ run.encoderCalls
          = visitedUpTo toASCII M.toNat (candidates (stringsToLower caseTable word).data)
      ∧ run.totalCombinations = totalCombinations (stringsToLower caseTable word).data
      ∧ (format ≠ "json" → format ≠ "detailed" →
          run.stdout = run.results.map fun p => p ++ "\n") := by
  unfold generateWordVariants
  simp only []
  rw [generateCombinations_eq_foldl toASCII _ format M (stringsToLower caseTable word).data.length
    0 "" _ (by simp)]
  simp only [List.drop_zero, candidatesFrom_empty]
  refine ⟨_, rfl, ?_, ?_, ?_, rfl, ?_⟩
  · simp only []
    rw [(foldl_visit_spec toASCII format M _ _).1]
    simp [successfulEncodings]
  · simp only []
    rw [(foldl_visit_spec toASCII format M _ _).2.1, (foldl_visit_spec toASCII format M _ _).1]
    simp
  · simp only []
    rw [(foldl_visit_spec toASCII format M _ _).2.2]
    simp
  · intro h1 h2
    simp only [h1, h2, if_false, List.append_nil]
    rw [foldl_visit_stdout_simple toASCII format M h1 h2, (foldl_visit_spec toASCII format M _ _).1]
    simp

/-- The run of `generateCombinations` from position 0 with an empty text, from
any state: it returns, and results, count and encoder trace grow as the fold
specification says. -/
theorem generateCombinations_spec (toASCII : String → Option String) (chars : List Char)
    (format : String) (M : Int) (st0 : GenState) :
    ∃ st, generateCombinations toASCII chars 0 "" format M st0 = some st
      ∧ st.results
          = st0.results ++ (successfulEncodings toASCII chars).take (M - st0.count).toNat
      ∧ st.count
          = st0.count
            + (((successfulEncodings toASCII chars).take (M - st0.count).toNat).length : Int)
      ∧ st.encoderCalls
          = st0.encoderCalls ++ visitedUpTo toASCII (M - st0.count).toNat (candidates chars) := by
  rw [generateCombinations_eq_foldl toASCII chars format M chars.length 0 "" st0 (by simp)]
  simp only [List.drop_zero, candidatesFrom_empty]
  exact ⟨_, rfl, foldl_visit_spec toASCII format M (candidates chars) st0⟩

/-! ## C1: the number of emitted results -/

/-- C1. For every word, every cap `M > 0` and every encoder, the run of
`generateWordVariants` returns, the number of results it emits (the length of
the result list, the final running count, and in the plain format the number
of lines written) is at most `M` and equals `min M S`, `S` being the number of
candidates of the full cross-product of the lower-cased word whose encoding
succeeds; the same holds for `generateCombinations` started at position 0
with a zero count and no results. -/
theorem emitted_results_count_eq_min (toASCII : String → Option String)
    (caseTable : Char → Char) (word format : String) (M : Int) (hM : 0 < M) :
    (∃ run, generateWordVariants toASCII caseTable word format M = some run
      ∧ (run.results.length : Int) ≤ M
      ∧ (run.results.length : Int)
          = min M (successfulEncodings toASCII (stringsToLower caseTable word).data).length
      ∧ run.count
          = min M (successfulEncodings toASCII (stringsToLower caseTable word).data).length
      ∧ (format ≠ "json" → format ≠ "detailed" →
          run.stdout = run.results.map (fun p => p ++ "\n")
            ∧ (run.stdout.length : Int)
              = min M (successfulEncodings toASCII (stringsToLower caseTable word).data).length))
    ∧ ∀ (chars : List Char) (st0 : GenState), st0.count = 0 → st0.results = [] →
        ∃ st, generateCombinations toASCII chars 0 "" format M st0 = some st
          ∧ (st.results.length : Int) ≤ M
          ∧ (st.results.length : Int) = min M (successfulEncodings toASCII chars).length
          ∧ st.count = min M (successfulEncodings toASCII chars).length := by
  constructor
  · obtain ⟨run, hrun, hres, hcount, -, -, hout⟩ :=
      generateWordVariants_spec toASCII caseTable word format M
    have hlen : (run.results.length : Int)
        = min M (successfulEncodings toASCII (stringsToLower caseTable word).data).length := by
      rw [hres, List.length_take]
      omega
    refine ⟨run, hrun, by omega, hlen, by omega, ?_⟩
    intro h1 h2
    refine ⟨hout h1 h2, ?_⟩
    rw [hout h1 h2, List.length_map]
    exact hlen
  · intro chars st0 h0 hr
    obtain ⟨st, hst, hres, hcount, -⟩ := generateCombinations_spec toASCII chars format M st0
    rw [h0] at hres hcount
    rw [hr] at hres
    have hlen : (st.results.length : Int) = min M (successfulEncodings toASCII chars).length := by
      rw [hres, List.nil_append, List.length_take]
      omega
    refine ⟨st, hst, by omega, hlen, ?_⟩
    rw [hcount, ← hlen, hres, List.nil_append]
    simp

theorem emitted_results_count_eq_min_witness :
    (0 : Int) < 2
    ∧ ((∃ run, generateWordVariants echoEncoder id "q" "simple" (2 : Int) = some run
      ∧ (run.results.length : Int) ≤ (2 : Int)
      ∧ (run.results.length : Int)
          = min (2 : Int) (successfulEncodings echoEncoder (stringsToLower id "q").data).length
      ∧ run.count
          = min (2 : Int) (successfulEncodings echoEncoder (stringsToLower id "q").data).length
      ∧ ("simple" ≠ "json" → "simple" ≠ "detailed" →
          run.stdout = run.results.map (fun p => p ++ "\n")
            ∧ (run.stdout.length : Int)
              = min (2 : Int) (successfulEncodings echoEncoder (stringsToLower id "q").data).length))
    ∧ ∀ (chars : List Char) (st0 : GenState), st0.count = 0 → st0.results = [] →
        ∃ st, generateCombinations echoEncoder chars 0 "" "simple" (2 : Int) st0 = some st
          ∧ (st.results.length : Int) ≤ (2 : Int)
          ∧ (st.results.length : Int) = min (2 : Int) (successfulEncodings echoEncoder chars).length
          ∧ st.count = min (2 : Int) (successfulEncodings echoEncoder chars).length) :=
  ⟨by decide, emitted_results_count_eq_min echoEncoder id "q" "simple" (2 : Int) (by decide)⟩

/-! ## C2: identity first -/

theorem cartesian_choices_head (chars : List Char) :
    ∃ tl, cartesian (chars.map choices) = chars :: tl := by
  induction chars with
  | nil => exact ⟨[], rfl⟩
  | cons c cs ih =>
    obtain ⟨tl, htl⟩ := ih
    simp only [List.map_cons, cartesian, choices, List.flatMap_cons, htl, List.map_cons,
      List.cons_append]
    exact ⟨_, rfl⟩

theorem candidates_head (chars : List Char) :
    ∃ tl, candidates chars = String.mk chars :: tl := by
  obtain ⟨tl, htl⟩ := cartesian_choices_head chars
  exact ⟨tl.map String.mk, by simp [candidates, htl]⟩

/-- C2. For every word and every cap `M ≥ 1`, if the encoding of the
lower-cased word succeeds, the run returns and its first result is exactly
`encodePunycode (lower W)`; with `M = 1` that is the only result. -/
theorem first_result_is_identity_encoding (toASCII : String → Option String)
    (caseTable : Char → Char) (word format : String) (M : Int) (hM : 1 ≤ M)
    (henc : encodePunycode toASCII (stringsToLower caseTable word) ≠ "") :
    ∃ run, generateWordVariants toASCII caseTable word format M = some run
      ∧ run.results.head? = some (encodePunycode toASCII (stringsToLower caseTable word))
      ∧ (M = 1 → run.results = [encodePunycode toASCII (stringsToLower caseTable word)]) := by
  obtain ⟨run, hrun, hres, -⟩ := generateWordVariants_spec toASCII caseTable word format M
  obtain ⟨tl, htl⟩ := candidates_head (stringsToLower caseTable word).data
  obtain ⟨k, hk⟩ : ∃ k, M.toNat = k + 1 := ⟨M.toNat - 1, by omega⟩
  have hs : successfulEncodings toASCII (stringsToLower caseTable word).data
      = encodePunycode toASCII (stringsToLower caseTable word) :: successes toASCII tl := by
    rw [successfulEncodings, htl, successes_cons]
    exact if_pos henc
  rw [hs, hk, List.take_succ_cons] at hres
  refine ⟨run, hrun, by rw [hres]; rfl, ?_⟩
  intro h1
  have : k = 0 := by omega
  rw [hres, this, List.take_zero]

theorem first_result_is_identity_encoding_witness :
    (1 : Int) ≤ 1
    ∧ encodePunycode asciiLabelEncoder (stringsToLower id "test") ≠ ""
    ∧ ∃ run, generateWordVariants asciiLabelEncoder id "test" "simple" 1 = some run
        ∧ run.results.head? = some "test" ∧ run.results = ["test"] := by
  have h := first_result_is_identity_encoding asciiLabelEncoder id "test" "simple" 1
    (by decide) (by decide)
  have he : encodePunycode asciiLabelEncoder (stringsToLower id "test") = "test" := by decide
  rw [he] at h
  obtain ⟨run, h1, h2, h3⟩ := h
  exact ⟨by decide, by decide, run, h1, h2, h3 rfl⟩

/-! ## C3: a cap that is zero or negative -/

theorem visitedUpTo_zero (toASCII : String → Option String) (cs : List String) :
    visitedUpTo toASCII 0 cs = [] := by
  cases cs <;> rfl

/-- C3. For every word and every cap `M ≤ 0`, the run emits no result, leaves
the running count at 0 and never invokes the encoder; `generateCombinations`
itself, entered at any position with a zero count, returns its state
untouched. -/
theorem nonpositive_cap_emits_nothing (toASCII : String → Option String)
    (caseTable : Char → Char) (word format : String) (M : Int) (hM : M ≤ 0) :
    (∃ run, generateWordVariants toASCII caseTable word format M = some run
      ∧ run.results = [] ∧ run.count = 0 ∧ run.encoderCalls = []
      ∧ (format ≠ "json" → format ≠ "detailed" → run.stdout = []))
    ∧ ∀ (chars : List Char) (pos : Nat) (current : String) (st0 : GenState), st0.count = 0 →
        generateCombinations toASCII chars pos current format M st0 = some st0 := by
  constructor
  · obtain ⟨run, hrun, hres, hcount, hcalls, -, hout⟩ :=
      generateWordVariants_spec toASCII caseTable word format M
    have hk : M.toNat = 0 := by omega
    rw [hk, List.take_zero] at hres
    rw [hk, visitedUpTo_zero] at hcalls
    refine ⟨run, hrun, hres, by rw [hcount, hres]; rfl, hcalls, ?_⟩
    intro h1 h2
    rw [hout h1 h2, hres]
    rfl
  · intro chars pos current st0 h0
    rw [generateCombinations]
    have : st0.count ≥ M := by omega
    simp [this]

theorem nonpositive_cap_emits_nothing_witness :
    (0 : Int) ≤ 0
    ∧ ((∃ run, generateWordVariants echoEncoder id "test" "json" 0 = some run
      ∧ run.results = [] ∧ run.count = 0 ∧ run.encoderCalls = []
      ∧ ("json" ≠ "json" → "json" ≠ "detailed" → run.stdout = []))
    ∧ ∀ (chars : List Char) (pos : Nat) (current : String) (st0 : GenState), st0.count = 0 →
        generateCombinations echoEncoder chars pos current "json" 0 st0 = some st0) :=
  ⟨by decide, nonpositive_cap_emits_nothing echoEncoder id "test" "json" 0 (by decide)⟩

/-! ## C4: the advisory total and the machine integer -/

theorem wrapInt_of_lt (x : Int) (h0 : 0 ≤ x) (h1 : x < 2 ^ 63) : wrapInt x = x := by
  unfold wrapInt
  rw [Int.emod_eq_of_lt (by omega) (by omega)]
  omega

theorem totalCombinationCount_pos (chars : List Char) : 0 < totalCombinationCount chars := by
  induction chars with
  | nil => simp [totalCombinationCount]
  | cons c cs ih =>
    have hc : totalCombinationCount (c :: cs)
        = (match homoglyphs c with
            | some variants => 1 + variants.length
            | none => 1) * totalCombinationCount cs := by
      simp [totalCombinationCount]
    rw [hc]
    refine Nat.mul_pos ?_ ih
    cases homoglyphs c <;> simp

theorem foldl_total_of_lt (chars : List Char) :
    ∀ acc : Nat, ((acc * totalCombinationCount chars : Nat) : Int) < 2 ^ 63 →
      chars.foldl
          (fun total char =>
            match homoglyphs char with
            | some variants => wrapInt (total * ((variants.length : Int) + 1))
            | none => total)
          (acc : Int)
        = ((acc * totalCombinationCount chars : Nat) : Int) := by
  induction chars with
  | nil => intro acc _; simp [totalCombinationCount]
  | cons c cs ih =>
    intro acc h
    have hpos := totalCombinationCount_pos cs
    have hc : totalCombinationCount (c :: cs)
        = (match homoglyphs c with
            | some variants => 1 + variants.length
            | none => 1) * totalCombinationCount cs := by
      simp [totalCombinationCount]
    rw [List.foldl_cons, hc]
    rw [hc] at h
    cases hh : homoglyphs c with
    | none =>
      simp only [hh] at h ⊢
      rw [one_mul] at h ⊢
      exact ih acc h
    | some variants =>
      simp only [hh] at h ⊢
      have hassoc : acc * ((1 + variants.length) * totalCombinationCount cs)
          = (acc * (1 + variants.length)) * totalCombinationCount cs := by ring
      rw [hassoc] at h ⊢
      have hle : acc * (1 + variants.length)
          ≤ (acc * (1 + variants.length)) * totalCombinationCount cs :=
        Nat.le_mul_of_pos_right _ hpos
      have hw : wrapInt ((acc : Int) * ((variants.length : Int) + 1))
          = ((acc * (1 + variants.length) : Nat) : Int) := by
        have he : (acc : Int) * ((variants.length : Int) + 1)
            = ((acc * (1 + variants.length) : Nat) : Int) := by push_cast; ring
        rw [he]
        apply wrapInt_of_lt
        · exact Int.natCast_nonneg _
        · have : ((acc * (1 + variants.length) : Nat) : Int)
              ≤ (((acc * (1 + variants.length)) * totalCombinationCount cs : Nat) : Int) :=
            Int.ofNat_le.mpr hle
          omega
      rw [hw]
      exact ih _ h

/-- As long as the exact product fits a Go `int`, `totalCombinations` is the
exact product. -/
theorem totalCombinations_exact_of_lt (chars : List Char)
    (h : (totalCombinationCount chars : Int) < 2 ^ 63) :
    totalCombinations chars = (totalCombinationCount chars : Int) := by
  have := foldl_total_of_lt chars 1 (by simpa using h)
  simpa [totalCombinations] using this

theorem stringsToLower_example (caseTable : Char → Char) :
    (stringsToLower caseTable "internationalization").data = "internationalization".data := by
  simp [stringsToLower, unicodeToLower]

set_option maxRecDepth 100000 in
theorem totalCombinations_example :
    totalCombinations "internationalization".data = 1821843753382281216 := by
  decide

set_option maxRecDepth 100000 in
theorem totalCombinationCount_example :
    totalCombinationCount "internationalization".data = 310368641409894375000000000000000 := by
  decide

/-- C4 (defect). On the word `internationalization`, the example of the
program's own usage text, the value `totalCombinations` computed by
`generateWordVariants` is 1821843753382281216, while the exact product of the
branching factors is 310368641409894375000000000000000: the machine
multiplication has wrapped around. -/
theorem totalCombinations_wraps_on_long_word (toASCII : String → Option String)
    (caseTable : Char → Char) (format : String) (M : Int) :
    ∃ run, generateWordVariants toASCII caseTable "internationalization" format M = some run
      ∧ run.totalCombinations = 1821843753382281216
      ∧ totalCombinationCount (stringsToLower caseTable "internationalization").data
          = 310368641409894375000000000000000
      ∧ run.totalCombinations
          ≠ (totalCombinationCount (stringsToLower caseTable "internationalization").data : Int) := by
  obtain ⟨run, hrun, -, -, -, htot, -⟩ :=
    generateWordVariants_spec toASCII caseTable "internationalization" format M
  rw [stringsToLower_example] at htot ⊢
  refine ⟨run, hrun, by rw [htot, totalCombinations_example], totalCombinationCount_example, ?_⟩
  rw [htot, totalCombinations_example, totalCombinationCount_example]
  decide

/-! ## C5: the exhaustive traversal -/

theorem visitedUpTo_eq_self (toASCII : String → Option String) (cs : List String) :
    ∀ k : Nat, (successes toASCII cs).length < k → visitedUpTo toASCII k cs = cs := by
  induction cs with
  | nil => intro k _; cases k <;> rfl
  | cons c cs ih =>
    intro k hk
    obtain ⟨j, rfl⟩ : ∃ j, k = j + 1 := ⟨k - 1, by omega⟩
    rw [successes_cons] at hk
    by_cases he : encodePunycode toASCII c = ""
    · simp only [he, ne_eq, not_true_eq_false, if_false] at hk
      simp [visitedUpTo, he, ih (j + 1) hk]
    · simp only [he, ne_eq, not_false_eq_true, if_true, List.length_cons] at hk
      simp [visitedUpTo, he, ih j (by omega)]

theorem length_cartesian (ls : List (List Char)) :
    (cartesian ls).length = (ls.map List.length).prod := by
  induction ls with
  | nil => rfl
  | cons l ls ih =>
    simp only [cartesian, List.length_flatMap, List.length_map, ih, List.map_cons,
      List.prod_cons]
    simp [List.sum_const_nat, Function.comp_def, ih]

theorem length_choices (c : Char) :
    (choices c).length
      = (match homoglyphs c with
          | some variants => 1 + variants.length
          | none => 1) := by
  unfold choices
  cases homoglyphs c <;> simp [Nat.add_comm]

theorem length_candidates (chars : List Char) :
    (candidates chars).length = totalCombinationCount chars := by
  simp only [candidates, List.length_map, length_cartesian, totalCombinationCount, List.map_map]
  congr 1
  apply List.map_congr_left
  intro c _
  exact length_choices c

/-- C5. For every word and cap `M`, if fewer than `M` candidates of the full
cross-product encode successfully (so in particular `M > 0`; the case where
every encoding fails is included), then the run invokes the encoder on exactly
`P` candidates, `P` the exact product over the positions of `1 + number of
table alternatives`: it visits the whole cross-product, and the final count
is the number of successes, below the cap. -/
theorem exhaustive_traversal_visits_total (toASCII : String → Option String)
    (caseTable : Char → Char) (word format : String) (M : Int)
    (hS : ((successfulEncodings toASCII (stringsToLower caseTable word).data).length : Int) < M) :
    ∃ run, generateWordVariants toASCII caseTable word format M = some run
      ∧ run.encoderCalls.length = totalCombinationCount (stringsToLower caseTable word).data
      ∧ run.encoderCalls = candidates (stringsToLower caseTable word).data
      ∧ run.count
          = ((successfulEncodings toASCII (stringsToLower caseTable word).data).length : Int)
      ∧ run.count < M := by
  obtain ⟨run, hrun, hres, hcount, hcalls, -⟩ :=
    generateWordVariants_spec toASCII caseTable word format M
  have hk : (successes toASCII (candidates (stringsToLower caseTable word).data)).length
      < M.toNat := by
    unfold successfulEncodings at hS
    omega
  rw [visitedUpTo_eq_self toASCII _ _ hk] at hcalls
  have hc : run.count
      = ((successfulEncodings toASCII (stringsToLower caseTable word).data).length : Int) := by
    rw [hcount, hres, List.length_take]
    unfold successfulEncodings
    omega
  refine ⟨run, hrun, by rw [hcalls, length_candidates], hcalls, hc, by omega⟩

theorem successes_failingEncoder (cs : List String) : successes failingEncoder cs = [] := by
  induction cs with
  | nil => rfl
  | cons c cs ih => rw [successes_cons, ih]; rfl

theorem exhaustive_traversal_visits_total_witness :
    ((successfulEncodings failingEncoder (stringsToLower id "ab").data).length : Int) < 1
    ∧ ∃ run, generateWordVariants failingEncoder id "ab" "simple" 1 = some run
      ∧ run.encoderCalls.length = totalCombinationCount (stringsToLower id "ab").data
      ∧ run.encoderCalls = candidates (stringsToLower id "ab").data
      ∧ run.count
          = ((successfulEncodings failingEncoder (stringsToLower id "ab").data).length : Int)
      ∧ run.count < 1 :=
  ⟨by simp [successfulEncodings, successes_failingEncoder],
   exhaustive_traversal_visits_total failingEncoder id "ab" "simple" 1
     (by simp [successfulEncodings, successes_failingEncoder])⟩

/-! ## C7: the shape of every candidate -/

theorem mem_visitedUpTo (toASCII : String → Option String) (cs : List String) :
    ∀ (k : Nat) (x : String), x ∈ visitedUpTo toASCII k cs → x ∈ cs := by
  induction cs with
  | nil => intro k x h; cases k <;> simp [visitedUpTo] at h
  | cons c cs ih =>
    intro k x h
    cases k with
    | zero => simp [visitedUpTo] at h
    | succ j =>
      simp only [visitedUpTo, List.mem_cons] at h
      rcases h with h | h
      · exact h ▸ List.mem_cons_self _ _
      · exact List.mem_cons_of_mem _ (ih _ x h)

theorem mem_cartesian (ls : List (List Char)) :
    ∀ t ∈ cartesian ls, t.length = ls.length
      ∧ ∀ (p : Nat) (x : Char) (l : List Char), t[p]? = some x → ls[p]? = some l → x ∈ l := by
  induction ls with
  | nil =>
    intro t ht
    simp only [cartesian, List.mem_singleton] at ht
    subst ht
    simp
  | cons l ls ih =>
    intro t ht
    simp only [cartesian, List.mem_flatMap, List.mem_map] at ht
    obtain ⟨x, hx, t1, ht1, rfl⟩ := ht
    obtain ⟨hlen, hpos⟩ := ih t1 ht1
    refine ⟨by simp [hlen], ?_⟩
    intro p y l1 hy hl1
    cases p with
    | zero =>
      simp only [List.getElem?_cons_zero, Option.some.injEq] at hy hl1
      subst hy hl1
      exact hx
    | succ q =>
      simp only [List.getElem?_cons_succ] at hy hl1
      exact hpos q y l1 hy hl1

theorem mem_choices (c x : Char) :
    x ∈ choices c ↔ x = c ∨ ∃ variants, homoglyphs c = some variants ∧ x ∈ variants := by
  unfold choices
  cases homoglyphs c <;> simp

/-- C7. For every word of `L` code points, every cap and every encoder, the
run returns and every string it passes to the encoder has exactly `L` code
points and holds at each position `p` either the character `lower(W)[p]` or an
element of `homoglyphs[lower(W)[p]]`; where that character is not a table key
the position holds the original character. -/
theorem every_candidate_is_a_substitution (toASCII : String → Option String)
    (caseTable : Char → Char) (word format : String) (M : Int) :
    ∃ run, generateWordVariants toASCII caseTable word format M = some run
      ∧ ∀ candidate ∈ run.encoderCalls,
          candidate.length = (stringsToLower caseTable word).data.length
          ∧ ∀ (p : Nat) (hp : p < (stringsToLower caseTable word).data.length),
              ∃ x, candidate.data[p]? = some x
                ∧ (x = (stringsToLower caseTable word).data[p]
                    ∨ ∃ variants,
                        homoglyphs ((stringsToLower caseTable word).data[p]) = some variants
                          ∧ x ∈ variants)
                ∧ (homoglyphs ((stringsToLower caseTable word).data[p]) = none
                    → x = (stringsToLower caseTable word).data[p]) := by
  obtain ⟨run, hrun, -, -, hcalls, -⟩ :=
    generateWordVariants_spec toASCII caseTable word format M
  refine ⟨run, hrun, ?_⟩
  intro candidate hc
  rw [hcalls] at hc
  have hmem := mem_visitedUpTo toASCII _ _ _ hc
  simp only [candidates, List.mem_map] at hmem
  obtain ⟨t, ht, rfl⟩ := hmem
  obtain ⟨hlen, hpos⟩ := mem_cartesian _ t ht
  rw [List.length_map] at hlen
  refine ⟨hlen, ?_⟩
  intro p hp
  have hpt : p < t.length := by omega
  have hx : t[p] ∈ choices ((stringsToLower caseTable word).data[p]) :=
    hpos p t[p] _ (List.getElem?_eq_getElem hpt) (by rw [List.getElem?_map, List.getElem?_eq_getElem hp]; rfl)
  refine ⟨t[p], List.getElem?_eq_getElem hpt, (mem_choices _ _).mp hx, ?_⟩
  intro hnone
  rcases (mem_choices _ _).mp hx with h | ⟨variants, hv, -⟩
  · exact h
  · rw [hnone] at hv
    cases hv

/-! ## C8: the traversal order -/

theorem getElem?_flatMap_const {α β : Type} (f : α → List β) (N : Nat)
    (hf : ∀ a, (f a).length = N) :
    ∀ (l : List α) (i : Nat), i < l.length * N →
      ∃ a y, l[i / N]? = some a ∧ (f a)[i % N]? = some y ∧ (l.flatMap f)[i]? = some y := by
  intro l
  induction l with
  | nil => intro i hi; simp at hi
  | cons a l ih =>
    intro i hi
    have hN : 0 < N := by
      rcases Nat.eq_zero_or_pos N with h | h
      · rw [h] at hi; simp at hi
      · exact h
    by_cases hlt : i < N
    · have hfa : i < (f a).length := by rw [hf]; exact hlt
      refine ⟨a, (f a)[i], ?_, ?_, ?_⟩
      · rw [Nat.div_eq_of_lt hlt]; exact List.getElem?_cons_zero
      · rw [Nat.mod_eq_of_lt hlt]; exact List.getElem?_eq_getElem hfa
      · rw [List.flatMap_cons, List.getElem?_append_left hfa]
        exact List.getElem?_eq_getElem hfa
    · have hle : N ≤ i := Nat.le_of_not_lt hlt
      have hj : i - N < l.length * N := by
        rw [List.length_cons, Nat.add_mul, Nat.one_mul] at hi
        omega
      obtain ⟨b, y, h1, h2, h3⟩ := ih (i - N) hj
      have hdiv : i / N = (i - N) / N + 1 := by
        conv_lhs => rw [← Nat.sub_add_cancel hle]
        exact Nat.add_div_right _ hN
      have hmod : i % N = (i - N) % N := by
        conv_lhs => rw [← Nat.sub_add_cancel hle]
        exact Nat.add_mod_right _ _
      refine ⟨b, y, ?_, ?_, ?_⟩
      · rw [hdiv, List.getElem?_cons_succ]; exact h1
      · rw [hmod]; exact h2
      · rw [List.flatMap_cons, List.getElem?_append_right (by rw [hf]; exact hle), hf]
        exact h3

theorem length_cartesian_cons (l : List Char) (ls : List (List Char)) :
    (cartesian (l :: ls)).length = l.length * (cartesian ls).length := by
  rw [length_cartesian, length_cartesian, List.map_cons, List.prod_cons]

theorem length_cartesian_split (ls : List (List Char)) :
    ∀ (p : Nat) (l : List Char), ls[p]? = some l →
      ∃ A, (cartesian ls).length = A * l.length * (cartesian (ls.drop (p + 1))).length := by
  induction ls with
  | nil => intro p l h; simp at h
  | cons l0 ls ih =>
    intro p l h
    cases p with
    | zero =>
      simp only [List.getElem?_cons_zero, Option.some.injEq] at h
      subst h
      exact ⟨1, by rw [length_cartesian_cons]; simp⟩
    | succ q =>
      simp only [List.getElem?_cons_succ] at h
      obtain ⟨A, hA⟩ := ih q l h
      refine ⟨l0.length * A, ?_⟩
      rw [length_cartesian_cons, hA, List.drop_succ_cons]
      ring

/-- The entry number `i` of the lexicographic product holds at position `p`
the digit of `i` written in the mixed radix of the choice lists, position 0
being the most significant digit. -/
theorem cartesian_digit (ls : List (List Char)) :
    ∀ (i p : Nat), i < (cartesian ls).length → p < ls.length →
      ∃ t x l, (cartesian ls)[i]? = some t ∧ t[p]? = some x ∧ ls[p]? = some l
        ∧ l[(i / (cartesian (ls.drop (p + 1))).length) % l.length]? = some x := by
  induction ls with
  | nil => intro i p _ hp; simp at hp
  | cons l ls ih =>
    intro i p hi hp
    rw [length_cartesian_cons] at hi
    obtain ⟨a, y, h1, h2, h3⟩ :=
      getElem?_flatMap_const (fun x => (cartesian ls).map fun t => x :: t)
        (cartesian ls).length (fun _ => List.length_map _ _) l i hi
    simp only [List.getElem?_map, Option.map_eq_some'] at h2
    obtain ⟨t1, ht1, rfl⟩ := h2
    have hN : 0 < (cartesian ls).length := by
      rcases Nat.eq_zero_or_pos (cartesian ls).length with h | h
      · rw [h] at hi; simp at hi
      · exact h
    cases p with
    | zero =>
      refine ⟨a :: t1, a, l, h3, List.getElem?_cons_zero, List.getElem?_cons_zero, ?_⟩
      have hd : i / (cartesian ls).length < l.length :=
        Nat.div_lt_of_lt_mul (by rw [Nat.mul_comm]; exact hi)
      simp only [Nat.zero_add, List.drop_succ_cons, List.drop_zero]
      rw [Nat.mod_eq_of_lt hd]
      exact h1
    | succ q =>
      have hq : q < ls.length := by simpa using hp
      obtain ⟨t2, x, l1, g1, g2, g3, g4⟩ := ih (i % (cartesian ls).length) q (Nat.mod_lt _ hN) hq
      rw [ht1] at g1
      cases g1
      refine ⟨a :: t1, x, l1, h3, by simpa using g2, by simpa using g3, ?_⟩
      obtain ⟨A, hA⟩ := length_cartesian_split ls q l1 g3
      rw [List.drop_succ_cons]
      rw [hA, Nat.mod_mul_left_div_self, Nat.mod_mul_left_mod] at g4
      exact g4

theorem cartesian_map_choices_drop (chars : List Char) (p : Nat) :
    (cartesian ((chars.map choices).drop p)).length = totalCombinationCount (chars.drop p) := by
  rw [← List.map_drop, ← length_candidates, candidates, List.length_map]

/-- C8. For every word, when the run ends with the cap not reached (final
count below `M`), the sequence of candidates passed to the encoder is the
Cartesian product of the per-position choice lists `[original, alternative_1,
..., alternative_k]` in lexicographic order, position 0 most significant: the
candidate number `i` holds at position `p` the entry of the choice list of
`p` whose index is the digit of `i` of weight `∏ q > p, radix q` (so the last
position varies fastest), and in every choice list the original character
comes first, followed by the alternatives in table order. -/
theorem traversal_order_is_lexicographic (toASCII : String → Option String)
    (caseTable : Char → Char) (word format : String) (M : Int) :
    ∃ run, generateWordVariants toASCII caseTable word format M = some run
      ∧ (run.count < M →
          run.encoderCalls
            = (cartesian ((stringsToLower caseTable word).data.map choices)).map String.mk
          ∧ run.encoderCalls.length = totalCombinationCount (stringsToLower caseTable word).data
          ∧ (∀ (i p : Nat), i < totalCombinationCount (stringsToLower caseTable word).data →
              ∀ hp : p < (stringsToLower caseTable word).data.length,
                ∃ candidate x, run.encoderCalls[i]? = some candidate
                  ∧ candidate.data[p]? = some x
                  ∧ (choices ((stringsToLower caseTable word).data[p]))[
                      (i / totalCombinationCount ((stringsToLower caseTable word).data.drop (p + 1)))
                        % (choices ((stringsToLower caseTable word).data[p])).length]? = some x)
          ∧ ∀ c, (choices c).head? = some c
              ∧ (choices c).tail = (match homoglyphs c with
                                    | some variants => variants
                                    | none => [])) := by
  obtain ⟨run, hrun, hres, hcount, hcalls, -⟩ :=
    generateWordVariants_spec toASCII caseTable word format M
  refine ⟨run, hrun, ?_⟩
  intro hlt
  rw [hcount, hres, List.length_take] at hlt
  have hk : (successes toASCII (candidates (stringsToLower caseTable word).data)).length
      < M.toNat := by
    unfold successfulEncodings at hlt
    omega
  rw [visitedUpTo_eq_self toASCII _ _ hk] at hcalls
  refine ⟨hcalls, by rw [hcalls, length_candidates], ?_, fun c => ⟨rfl, rfl⟩⟩
  intro i p hi hp
  rw [← length_candidates, candidates, List.length_map] at hi
  obtain ⟨t, x, l, h1, h2, h3, h4⟩ :=
    cartesian_digit _ i p hi (by rw [List.length_map]; exact hp)
  rw [List.getElem?_map, List.getElem?_eq_getElem hp] at h3
  cases h3
  rw [cartesian_map_choices_drop] at h4
  refine ⟨String.mk t, x, ?_, h2, h4⟩
  rw [hcalls, candidates, List.getElem?_map, h1]
  rfl

theorem traversal_order_is_lexicographic_witness :
    ∃ run, generateWordVariants failingEncoder id "ab" "simple" 1 = some run
      ∧ run.count < 1
      ∧ run.encoderCalls
          = (cartesian ((stringsToLower id "ab").data.map choices)).map String.mk
      ∧ run.encoderCalls.length = totalCombinationCount (stringsToLower id "ab").data := by
  obtain ⟨run, hrun, h⟩ := traversal_order_is_lexicographic failingEncoder id "ab" "simple" 1
  obtain ⟨run1, hrun1, hres, hcount, -⟩ :=
    generateWordVariants_spec failingEncoder id "ab" "simple" 1
  have hEq : run1 = run := Option.some.inj (hrun1.symm.trans hrun)
  subst hEq
  have hlt : run1.count < 1 := by
    rw [hcount, hres]
    simp [successfulEncodings, successes_failingEncoder]
  exact ⟨run1, hrun, hlt, (h hlt).1, (h hlt).2.1⟩

/-! ## C6: distinctness of the visited candidates -/

theorem nodup_cartesian (ls : List (List Char)) (h : ∀ l ∈ ls, l.Nodup) :
    (cartesian ls).Nodup := by
  induction ls with
  | nil => simp [cartesian]
  | cons l ls ih =>
    have hl : l.Nodup := h l (List.mem_cons_self _ _)
    have hls : (cartesian ls).Nodup := ih fun l1 h1 => h l1 (List.mem_cons_of_mem _ h1)
    simp only [cartesian]
    rw [List.nodup_flatMap]
    constructor
    · intro x _
      exact hls.map fun a b hab => List.tail_eq_of_cons_eq hab
    · refine List.Pairwise.imp ?_ hl
      intro a b hab t hta htb
      simp only [List.mem_map] at hta htb
      obtain ⟨t1, -, rfl⟩ := hta
      obtain ⟨t2, -, h2⟩ := htb
      exact hab (List.head_eq_of_cons_eq h2).symm

theorem nodup_candidates (chars : List Char) (h : ∀ c ∈ chars, (choices c).Nodup) :
    (candidates chars).Nodup := by
  unfold candidates
  refine (nodup_cartesian _ ?_).map fun a b hab => congrArg String.data hab
  intro l hl
  simp only [List.mem_map] at hl
  obtain ⟨c, hc, rfl⟩ := hl
  exact h c hc

set_option maxRecDepth 100000 in
theorem homoglyphs_eq_none_of_not_key (c : Char) (h : c ∉ tableKeys) : homoglyphs c = none := by
  unfold homoglyphs
  split <;> first | rfl | (exfalso; revert h; decide)

set_option maxRecDepth 100000 in
/-- In the shipped table the choice list of a character is free of repeated
entries exactly when the character is none of `c e i m n o r s t z`. -/
theorem nodup_choices_iff (c : Char) : (choices c).Nodup ↔ c ∉ keysWithRepeats := by
  by_cases hk : c ∈ tableKeys
  · simp only [tableKeys, List.mem_cons, List.mem_singleton, List.not_mem_nil, or_false] at hk
    rcases hk with h | h | h | h | h | h | h | h | h | h | h | h | h | h | h | h | h | h | h | h
      | h | h | h | h | h | h <;> subst h <;> decide
  · have h1 : c ∉ keysWithRepeats := fun h => hk (by
      revert h
      simp only [tableKeys, keysWithRepeats, List.mem_cons, List.mem_singleton]
      tauto)
    simp [choices, homoglyphs_eq_none_of_not_key c hk, h1]

theorem candidates_c_not_nodup : ¬ (candidates "c".data).Nodup := by
  decide

theorem candidates_c_dedup : (candidates "c".data).dedup.length = 30 := by
  decide

/-- C6 (counterexample). On the word `c`, with an encoder that never succeeds
and cap 1, the cap is never reached and the traversal visits the 32 candidates
of the cross-product, but `ḉ` and `ć` each occur twice among the table
alternatives of `c`: the visited candidates are not pairwise distinct and only
30 of them are distinct. -/
theorem visited_candidates_not_distinct :
    ∃ run, generateWordVariants failingEncoder id "c" "simple" 1 = some run
      ∧ run.count < 1
      ∧ ¬ run.encoderCalls.Nodup
      ∧ run.encoderCalls.dedup.length = 30
      ∧ totalCombinationCount (stringsToLower id "c").data = 32 := by
  obtain ⟨run, hrun, hres, hcount, hcalls, -⟩ :=
    generateWordVariants_spec failingEncoder id "c" "simple" 1
  have hl : (stringsToLower id "c").data = "c".data := by decide
  rw [hl] at hres hcalls ⊢
  rw [visitedUpTo_eq_self failingEncoder _ _ (by simp [successes_failingEncoder])] at hcalls
  have hlt : run.count < 1 := by
    rw [hcount, hres]
    simp [successfulEncodings, successes_failingEncoder]
  refine ⟨run, hrun, hlt, ?_, ?_, by decide⟩
  · rw [hcalls]; exact candidates_c_not_nodup
  · rw [hcalls]; exact candidates_c_dedup

/-- C6 (amended). For every word in which the choice list of every character
(the character followed by its table alternatives) has no repeated entry, when
fewer than `M` candidates encode successfully the candidates visited by the
traversal are pairwise distinct and their number is TotalCombinationCount. -/
theorem visited_candidates_distinct_of_nodup_choices (toASCII : String → Option String)
    (caseTable : Char → Char) (word format : String) (M : Int)
    (hnd : ∀ c ∈ (stringsToLower caseTable word).data, (choices c).Nodup)
    (hS : ((successfulEncodings toASCII (stringsToLower caseTable word).data).length : Int) < M) :
    ∃ run, generateWordVariants toASCII caseTable word format M = some run
      ∧ run.encoderCalls.Nodup
      ∧ run.encoderCalls.dedup.length = totalCombinationCount (stringsToLower caseTable word).data
      ∧ run.encoderCalls.length = totalCombinationCount (stringsToLower caseTable word).data := by
  obtain ⟨run, hrun, -, -, hcalls, -⟩ :=
    generateWordVariants_spec toASCII caseTable word format M
  have hk : (successes toASCII (candidates (stringsToLower caseTable word).data)).length
      < M.toNat := by
    unfold successfulEncodings at hS
    omega
  rw [visitedUpTo_eq_self toASCII _ _ hk] at hcalls
  have hn : run.encoderCalls.Nodup := by
    rw [hcalls]
    exact nodup_candidates _ hnd
  refine ⟨run, hrun, hn, ?_, by rw [hcalls, length_candidates]⟩
  rw [hn.dedup, hcalls, length_candidates]

theorem visited_candidates_distinct_of_nodup_choices_witness :
    (∀ c ∈ (stringsToLower id "ab").data, (choices c).Nodup)
    ∧ ((successfulEncodings failingEncoder (stringsToLower id "ab").data).length : Int) < 1
    ∧ ∃ run, generateWordVariants failingEncoder id "ab" "simple" 1 = some run
      ∧ run.encoderCalls.Nodup
      ∧ run.encoderCalls.dedup.length = totalCombinationCount (stringsToLower id "ab").data
      ∧ run.encoderCalls.length = totalCombinationCount (stringsToLower id "ab").data :=
  ⟨by decide, by simp [successfulEncodings, successes_failingEncoder],
   visited_candidates_distinct_of_nodup_choices failingEncoder id "ab" "simple" 1 (by decide)
     (by simp [successfulEncodings, successes_failingEncoder])⟩

/-! ## C9, C10: single-letter variants in the `json` format -/

theorem utf8ByteSize_ne_zero_of_byteZero (letter : String) (b : Nat)
    (hb : byteZero letter = some b) : letter.utf8ByteSize ≠ 0 := by
  obtain ⟨data⟩ := letter
  cases data with
  | nil => simp [byteZero] at hb
  | cons c cs =>
    have := c.utf8Size_pos
    simp only [String.utf8ByteSize, String.utf8ByteSize.go]
    omega

theorem foldl_append_eq_map {α β : Type} (f : α → β) (l : List α) :
    ∀ acc : List β, l.foldl (fun out a => out ++ [f a]) acc = acc ++ l.map f := by
  induction l with
  | nil => intro acc; simp
  | cons a l ih => intro acc; simp [ih]

/-- The `json` branch of `generateLetterVariants` in closed form. -/
theorem generateLetterVariants_json (toASCII : String → Option String)
    (caseTable : Char → Char) (letter : String) (b : Nat) (variants : List Char)
    (hb : byteZero letter = some b)
    (hk : homoglyphs (unicodeToLower caseTable (Char.ofNat b)) = some variants) :
    generateLetterVariants toASCII caseTable letter "json"
      = some
          { stderr := []
            stdout := []
            json := some
              { Letter := String.singleton (unicodeToLower caseTable (Char.ofNat b))
                Variants := variants.map fun v =>
                  { Glyph := String.singleton v
                    Punycode := encodePunycode toASCII (String.singleton v) } } } := by
  unfold generateLetterVariants
  simp only [utf8ByteSize_ne_zero_of_byteZero letter b hb, if_false, hb, hk, if_true]
  rw [foldl_append_eq_map]
  rfl

theorem byteZero_ascii (u : Char) (rest : List Char) (h : u.toNat < 0x80) :
    byteZero ⟨u :: rest⟩ = some u.toNat := by
  simp [byteZero, utf8LeadByte, h]

theorem unicodeToLower_upper (caseTable : Char → Char) (u : Char)
    (h1 : 'A'.toNat ≤ u.toNat) (h2 : u.toNat ≤ 'Z'.toNat) :
    unicodeToLower caseTable (Char.ofNat u.toNat) = Char.ofNat (u.toNat + 32) := by
  have e1 : 'A'.toNat = 65 := rfl
  have e2 : 'Z'.toNat = 90 := rfl
  have e3 : 'a'.toNat = 97 := rfl
  rw [e1] at h1
  rw [e2] at h2
  rw [Char.ofNat_toNat]
  unfold unicodeToLower
  rw [e1, e2, e3, if_pos (by omega), if_pos ⟨h1, h2⟩]

theorem toNat_ofNat_of_lt (n : Nat) (h : n < 0xd800) : (Char.ofNat n).toNat = n := by
  have hv : n.isValidChar := Or.inl h
  simp only [Char.ofNat, hv, dite_true, Char.toNat, Char.ofNatAux]
  rfl

theorem unicodeToLower_lower (caseTable : Char → Char) (u : Char)
    (h1 : 'A'.toNat ≤ u.toNat) (h2 : u.toNat ≤ 'Z'.toNat) :
    unicodeToLower caseTable (Char.ofNat (Char.ofNat (u.toNat + 32)).toNat)
      = Char.ofNat (u.toNat + 32) := by
  have e1 : 'A'.toNat = 65 := rfl
  have e2 : 'Z'.toNat = 90 := rfl
  rw [e1] at h1
  rw [e2] at h2
  rw [Char.ofNat_toNat]
  have hn : (Char.ofNat (u.toNat + 32)).toNat = u.toNat + 32 := toNat_ofNat_of_lt _ (by omega)
  unfold unicodeToLower
  rw [hn, e1, e2, if_pos (by omega), if_neg (by omega)]

theorem upper_maps_to_key (n : Nat) (h1 : 65 ≤ n) (h2 : n ≤ 90) :
    homoglyphs (Char.ofNat (n + 32)) ≠ none := by
  interval_cases n <;> decide

theorem generateLetterVariants_upper (toASCII : String → Option String)
    (caseTable : Char → Char) (format : String) (u : Char) (rest : List Char)
    (h1 : 'A'.toNat ≤ u.toNat) (h2 : u.toNat ≤ 'Z'.toNat) :
    generateLetterVariants toASCII caseTable ⟨u :: rest⟩ format
      = generateLetterVariants toASCII caseTable ⟨Char.ofNat (u.toNat + 32) :: rest⟩ format := by
  have e1 : 'A'.toNat = 65 := rfl
  have e2 : 'Z'.toNat = 90 := rfl
  have hn : (Char.ofNat (u.toNat + 32)).toNat = u.toNat + 32 :=
    toNat_ofNat_of_lt _ (by omega)
  have hb1 : byteZero ⟨u :: rest⟩ = some u.toNat := byteZero_ascii u rest (by omega)
  have hb2 : byteZero ⟨Char.ofNat (u.toNat + 32) :: rest⟩
      = some (Char.ofNat (u.toNat + 32)).toNat :=
    byteZero_ascii _ rest (by omega)
  unfold generateLetterVariants
  simp only [utf8ByteSize_ne_zero_of_byteZero _ _ hb1, utf8ByteSize_ne_zero_of_byteZero _ _ hb2,
    if_false, hb1, hb2, unicodeToLower_upper caseTable u h1 h2,
    unicodeToLower_lower caseTable u h1 h2]

/-- C9 (counterexample). The input whose only character is the Kelvin sign
U+212A is non-empty and its lower-cased first character is `k`, a key of the
table; but line 185 lower-cases the first byte `letter[0] = 0xE2`, that is
`â`, which is no key: `generateLetterVariants` in the `json` format builds no
variant list at all and reports `No homoglyphs found for letter: â`. -/
theorem letter_lookup_reads_first_byte_not_first_character :
    (String.mk [Char.ofNat 0x212A]).data.head? = some (Char.ofNat 0x212A)
    ∧ unicodeToLower kelvinCaseTable (Char.ofNat 0x212A) = 'k'
    ∧ (homoglyphs (unicodeToLower kelvinCaseTable (Char.ofNat 0x212A))).isSome = true
    ∧ byteZero (String.mk [Char.ofNat 0x212A]) = some 0xE2
    ∧ unicodeToLower kelvinCaseTable (Char.ofNat 0xE2) = 'â'
    ∧ homoglyphs 'â' = none
    ∧ generateLetterVariants echoEncoder kelvinCaseTable (String.mk [Char.ofNat 0x212A]) "json"
        = some { stderr := ["No homoglyphs found for letter: â\n"], stdout := [], json := none } := by
  refine ⟨rfl, by decide, by decide, by decide, by decide, by decide, ?_⟩
  decide

/-- C9 (amended). For every non-empty letter input whose first byte
`letter[0]`, read as a rune and lower-cased, is a key `c` of the table,
`generateLetterVariants` in the `json` format builds the output for `c` whose
variant list has exactly one entry per table alternative of `c`, in table
order, entry `i` pairing `alternative_i` with `encodePunycode(alternative_i)`
(an empty punycode when the encoding fails, the entry is kept); an upper-case
letter `A`-`Z` gives the same output as its lower-case form, which is a key of
the table; and for an input that starts with an ASCII character the first
byte is that character. The function has no maximum-combinations parameter. -/
theorem letter_json_lists_every_alternative (toASCII : String → Option String)
    (caseTable : Char → Char) (letter : String) (b : Nat) (variants : List Char)
    (hb : byteZero letter = some b)
    (hk : homoglyphs (unicodeToLower caseTable (Char.ofNat b)) = some variants) :
    (∃ out, generateLetterVariants toASCII caseTable letter "json"
          = some { stderr := [], stdout := [], json := some out }
        ∧ out.Letter = String.singleton (unicodeToLower caseTable (Char.ofNat b))
        ∧ out.Variants.length = variants.length
        ∧ ∀ (i : Nat) (h : i < variants.length),
            out.Variants[i]?
              = some { Glyph := String.singleton variants[i]
                       Punycode := encodePunycode toASCII (String.singleton variants[i]) })
    ∧ (∀ (u : Char) (rest : List Char), 'A'.toNat ≤ u.toNat → u.toNat ≤ 'Z'.toNat →
        generateLetterVariants toASCII caseTable ⟨u :: rest⟩ "json"
          = generateLetterVariants toASCII caseTable ⟨Char.ofNat (u.toNat + 32) :: rest⟩ "json"
        ∧ homoglyphs (Char.ofNat (u.toNat + 32)) ≠ none)
    ∧ ∀ (u : Char) (rest : List Char), u.toNat < 0x80 →
        byteZero ⟨u :: rest⟩ = some u.toNat ∧ Char.ofNat u.toNat = u := by
  refine ⟨?_, ?_, ?_⟩
  · refine ⟨_, generateLetterVariants_json toASCII caseTable letter b variants hb hk, rfl,
      by simp, ?_⟩
    intro i h
    simp [List.getElem?_map, List.getElem?_eq_getElem h]
  · intro u rest h1 h2
    exact ⟨generateLetterVariants_upper toASCII caseTable "json" u rest h1 h2,
      upper_maps_to_key u.toNat h1 h2⟩
  · intro u rest hu
    exact ⟨byteZero_ascii u rest hu, Char.ofNat_toNat u⟩

theorem letter_json_lists_every_alternative_witness :
    byteZero "Q" = some 81
    ∧ homoglyphs (unicodeToLower id (Char.ofNat 81))
        = some ['զ', 'ԛ', 'գ', '𝐪', '𝑞', '𝒒', '𝓺', '𝔮', '𝕢', '𝖖', '𝗾', '𝘲', '𝙦', '𝚞', 'ʠ']
    ∧ ∃ out, generateLetterVariants echoEncoder id "Q" "json"
          = some { stderr := [], stdout := [], json := some out }
        ∧ out.Letter = "q"
        ∧ out.Variants.length = 15
        ∧ out.Variants[0]? = some { Glyph := "զ", Punycode := "զ" }
        ∧ generateLetterVariants echoEncoder id "Q" "json"
            = generateLetterVariants echoEncoder id "q" "json" := by
  have h := letter_json_lists_every_alternative echoEncoder id "Q" 81
    ['զ', 'ԛ', 'գ', '𝐪', '𝑞', '𝒒', '𝓺', '𝔮', '𝕢', '𝖖', '𝗾', '𝘲', '𝙦', '𝚞', 'ʠ']
    (by decide) (by decide)
  obtain ⟨⟨out, h1, h2, h3, h4⟩, h5, -⟩ := h
  exact ⟨by decide, by decide, out, h1, h2, h3, h4 0 (by decide),
    (h5 'Q' [] (by decide) (by decide)).1⟩

/-- C10 (counterexample). For the letter `q` and an encoder that fails on
every input, the `json` variants array holds 15 entries and every one of them
has an empty punycode: the array does not contain only successful encodings. -/
theorem letter_json_keeps_failed_encodings :
    ∃ out, generateLetterVariants failingEncoder id "q" "json"
          = some { stderr := [], stdout := [], json := some out }
        ∧ out.Variants.length = 15
        ∧ ({ Glyph := "զ", Punycode := "" } : Variant) ∈ out.Variants
        ∧ ∀ entry ∈ out.Variants, entry.Punycode = "" := by
  refine ⟨_, generateLetterVariants_json failingEncoder id "q" 113
    ['զ', 'ԛ', 'գ', '𝐪', '𝑞', '𝒒', '𝓺', '𝔮', '𝕢', '𝖖', '𝗾', '𝘲', '𝙦', '𝚞', 'ʠ']
    (by decide) (by decide), by decide, by decide, by decide⟩

/-- C10 (amended). For every letter with a table entry and every encoder, the
`json` variants array holds, for each table alternative and nothing else, the
pair of the glyph and its `encodePunycode`; an entry has an empty punycode
exactly when the encoding of its glyph failed, so the array contains only
successful encodings if and only if every alternative encodes successfully. -/
theorem letter_json_only_successes_iff (toASCII : String → Option String)
    (caseTable : Char → Char) (letter : String) (b : Nat) (variants : List Char)
    (hb : byteZero letter = some b)
    (hk : homoglyphs (unicodeToLower caseTable (Char.ofNat b)) = some variants) :
    ∃ out, generateLetterVariants toASCII caseTable letter "json"
          = some { stderr := [], stdout := [], json := some out }
        ∧ (∀ entry, entry ∈ out.Variants ↔
            ∃ v ∈ variants, entry = { Glyph := String.singleton v
                                      Punycode := encodePunycode toASCII (String.singleton v) })
        ∧ (∀ entry ∈ out.Variants, entry.Punycode = encodePunycode toASCII entry.Glyph)
        ∧ ((∀ entry ∈ out.Variants, entry.Punycode ≠ "")
            ↔ ∀ v ∈ variants, encodePunycode toASCII (String.singleton v) ≠ "") := by
  refine ⟨_, generateLetterVariants_json toASCII caseTable letter b variants hb hk, ?_, ?_, ?_⟩
  · intro entry
    simp only [List.mem_map]
    constructor
    · rintro ⟨v, hv, rfl⟩; exact ⟨v, hv, rfl⟩
    · rintro ⟨v, hv, rfl⟩; exact ⟨v, hv, rfl⟩
  · intro entry he
    simp only [List.mem_map] at he
    obtain ⟨v, -, rfl⟩ := he
    rfl
  · simp only [List.forall_mem_map]

theorem letter_json_only_successes_iff_witness :
    byteZero "q" = some 113
    ∧ homoglyphs (unicodeToLower id (Char.ofNat 113))
        = some ['զ', 'ԛ', 'գ', '𝐪', '𝑞', '𝒒', '𝓺', '𝔮', '𝕢', '𝖖', '𝗾', '𝘲', '𝙦', '𝚞', 'ʠ']
    ∧ ∃ out, generateLetterVariants echoEncoder id "q" "json"
          = some { stderr := [], stdout := [], json := some out }
        ∧ (∀ entry ∈ out.Variants, entry.Punycode = encodePunycode echoEncoder entry.Glyph)
        ∧ ((∀ entry ∈ out.Variants, entry.Punycode ≠ "")
            ↔ ∀ v ∈ ['զ', 'ԛ', 'գ', '𝐪', '𝑞', '𝒒', '𝓺', '𝔮', '𝕢', '𝖖', '𝗾', '𝘲', '𝙦', '𝚞', 'ʠ'],
                encodePunycode echoEncoder (String.singleton v) ≠ "") := by
  obtain ⟨out, h1, -, h3, h4⟩ := letter_json_only_successes_iff echoEncoder id "q" 113
    ['զ', 'ԛ', 'գ', '𝐪', '𝑞', '𝒒', '𝓺', '𝔮', '𝕢', '𝖖', '𝗾', '𝘲', '𝙦', '𝚞', 'ʠ']
    (by decide) (by decide)
  exact ⟨by decide, by decide, out, h1, h3, h4⟩

/-! ## C11: the empty letter -/

/-- C11 (counterexample). Called with the empty string, `generateLetterVariants`
returns without a panic and without any result, but what it reports on the
error stream is `Error: Empty letter provided`: no message it writes begins
with `No homoglyphs found`. -/
theorem empty_letter_not_reported_as_no_homoglyphs :
    ∃ run, generateLetterVariants failingEncoder id "" "simple" = some run
      ∧ run.stdout = [] ∧ run.json = none
      ∧ run.stderr = ["Error: Empty letter provided\n"]
      ∧ ∀ msg ∈ run.stderr, ¬ ("No homoglyphs found".data <+: msg.data) := by
  refine ⟨_, rfl, rfl, rfl, rfl, ?_⟩
  decide

/-- C11 (amended). Called with the empty string, for every encoder and every
format, `generateLetterVariants` does not panic (the guard `len(letter) == 0`
returns before `letter[0]` is evaluated), emits no result, and reports
`Error: Empty letter provided` on the error stream. -/
theorem empty_letter_is_reported_as_error (toASCII : String → Option String)
    (caseTable : Char → Char) (format : String) :
    generateLetterVariants toASCII caseTable "" format
        = some { stderr := ["Error: Empty letter provided\n"], stdout := [], json := none }
      ∧ byteZero "" = none := by
  exact ⟨rfl, rfl⟩

/-! ## C12: the selection of the input method -/

/-- C12. For every combination of resolved inputs (reached when no help flag
is given), `main` invokes a handler if and only if exactly one of `letter
non-empty`, `word non-empty`, `stdin set` holds, and this handler is the one
of the active method, called with the resolved arguments; when none or more
than one holds, no handler is invoked and the process exits with status 1. -/
theorem main_runs_the_single_active_handler (arg0 : String) (flags : Flags)
    (h1 : flags.help = false) (h2 : flags.helpFlag = false) :
    ((main arg0 flags).call.isSome = true ↔ activeMethods flags = 1)
    ∧ (activeMethods flags = 1 → (main arg0 flags).exitStatus = none)
    ∧ (activeMethods flags = 1 → getBoolFlag flags.stdin flags.stdinFlag = true →
        (main arg0 flags).call
          = some (.handleStdin (getStringFlag flags.format flags.formatFlag)
                    (getIntFlag flags.maxCombinations flags.maxFlag)))
    ∧ (activeMethods flags = 1 → getStringFlag flags.letter flags.letterFlag ≠ "" →
        (main arg0 flags).call
          = some (.generateLetterVariants (getStringFlag flags.letter flags.letterFlag)
                    (getStringFlag flags.format flags.formatFlag)))
    ∧ (activeMethods flags = 1 → getStringFlag flags.word flags.wordFlag ≠ "" →
        (main arg0 flags).call
          = some (.generateWordVariants (getStringFlag flags.word flags.wordFlag)
                    (getStringFlag flags.format flags.formatFlag)
                    (getIntFlag flags.maxCombinations flags.maxFlag)))
    ∧ (activeMethods flags ≠ 1 →
        (main arg0 flags).call = none ∧ (main arg0 flags).exitStatus = some 1) := by
  unfold main activeMethods
  simp only [h1, h2, Bool.or_self, Bool.false_eq_true, if_false]
  by_cases hl : getStringFlag flags.letter flags.letterFlag = "" <;>
    by_cases hw : getStringFlag flags.word flags.wordFlag = "" <;>
    cases hs : getBoolFlag flags.stdin flags.stdinFlag <;>
    simp [hl, hw, hs]

theorem main_runs_the_single_active_handler_witness :
    ({ defaultFlags with word := "test" } : Flags).help = false
    ∧ ({ defaultFlags with word := "test" } : Flags).helpFlag = false
    ∧ activeMethods { defaultFlags with word := "test" } = 1
    ∧ (main "punygen" { defaultFlags with word := "test" }).call
        = some (.generateWordVariants "test" "simple" 1000) := by
  have h := main_runs_the_single_active_handler "punygen" { defaultFlags with word := "test" }
    rfl rfl
  exact ⟨rfl, rfl, by decide, h.2.2.2.2.1 (by decide) (by decide)⟩

/-! ## C13: the two spellings of the format option -/

/-- C13 (defect). With the short option `-f` left at its default `"simple"`,
`getStringFlag(*format, *formatFlag)` is `"simple"` whatever value `v` the long
option `--format` holds: `--format json` alone reaches the handler as
`"simple"`. The long spelling of the word option, whose short default is `""`,
does take effect. -/
theorem long_format_option_is_ignored (v : String) :
    getStringFlag "simple" v = "simple"
    ∧ (main "punygen" { defaultFlags with wordFlag := "test", formatFlag := v }).call
        = some (.generateWordVariants "test" "simple" 1000)
    ∧ getStringFlag "simple" "json" ≠ "json"
    ∧ getStringFlag "" "test" = "test" := by
  refine ⟨rfl, ?_, by decide, rfl⟩
  simp [main, defaultFlags, getStringFlag, getBoolFlag, getIntFlag]

/-! ## C14: the classification of input lines -/

theorem utf8Size_eq_one_iff (c : Char) : c.utf8Size = 1 ↔ c.toNat ≤ 127 := by
  have h : c.val ≤ UInt32.ofNatCore 127 (by decide) ↔ c.toNat ≤ 127 := Iff.rfl
  unfold Char.utf8Size
  simp only []
  constructor
  · intro hs
    by_contra hn
    rw [if_neg (fun hv => hn (h.mp hv))] at hs
    split_ifs at hs <;> omega
  · intro hs
    rw [if_pos (h.mpr hs)]

theorem utf8ByteSize_eq_one_iff (s : String) :
    s.utf8ByteSize = 1 ↔ ∃ c : Char, s = String.singleton c ∧ c.toNat ≤ 127 := by
  obtain ⟨data⟩ := s
  cases data with
  | nil =>
    simp only [String.utf8ByteSize, String.utf8ByteSize.go]
    constructor
    · intro h; cases h
    · rintro ⟨c, hc, -⟩
      have := congrArg String.data hc
      simp [String.singleton] at this
  | cons c cs =>
    cases cs with
    | nil =>
      simp only [String.utf8ByteSize, String.utf8ByteSize.go, Nat.zero_add, utf8Size_eq_one_iff]
      constructor
      · intro h; exact ⟨c, rfl, h⟩
      · rintro ⟨d, hd, hle⟩
        have := congrArg String.data hd
        simp [String.singleton] at this
        rw [this]; exact hle
    | cons c2 cs2 =>
      have p1 := c.utf8Size_pos
      have p2 := c2.utf8Size_pos
      simp only [String.utf8ByteSize, String.utf8ByteSize.go]
      constructor
      · intro h; omega
      · rintro ⟨d, hd, -⟩
        have := congrArg String.data hd
        simp [String.singleton] at this

theorem utf8ByteSize_pos_iff (s : String) : 0 < s.utf8ByteSize ↔ s ≠ "" := by
  obtain ⟨data⟩ := s
  cases data with
  | nil =>
    simp only [String.utf8ByteSize, String.utf8ByteSize.go]
    constructor
    · intro h; cases h
    · intro h; exact absurd rfl h
  | cons c cs =>
    have p1 := c.utf8Size_pos
    simp only [String.utf8ByteSize, String.utf8ByteSize.go]
    constructor
    · intro _ h
      have := congrArg String.data h
      simp at this
    · intro _; omega

theorem generateLetterVariants_returns (toASCII : String → Option String)
    (caseTable : Char → Char) (letter format : String) :
    ∃ run, generateLetterVariants toASCII caseTable letter format = some run := by
  obtain ⟨data⟩ := letter
  cases data with
  | nil => exact ⟨_, rfl⟩
  | cons c cs =>
    have hb : byteZero ⟨c :: cs⟩ = some (utf8LeadByte c) := rfl
    unfold generateLetterVariants
    simp only [utf8ByteSize_ne_zero_of_byteZero _ _ hb, if_false, hb]
    cases homoglyphs (unicodeToLower caseTable (Char.ofNat (utf8LeadByte c))) with
    | none => exact ⟨_, rfl⟩
    | some variants =>
      simp only []
      split_ifs <;> exact ⟨_, rfl⟩

theorem scanLoop_spec (toASCII : String → Option String) (caseTable : Char → Char)
    (whiteSpace : Char → Bool) (format : String) (M : Int) (scanned : List String) :
    ∃ runs, scanLoop toASCII caseTable whiteSpace format M scanned = some runs
      ∧ List.Forall₂
          (fun input lineRun =>
            (input.utf8ByteSize = 1
              ∧ ∃ r, generateLetterVariants toASCII caseTable input format = some r
                  ∧ lineRun = LineRun.letter input r)
            ∨ (input.utf8ByteSize ≠ 1
              ∧ ∃ r, generateWordVariants toASCII caseTable input format M = some r
                  ∧ lineRun = LineRun.word input r))
          ((scanned.map (stringsTrimSpace whiteSpace)).filter fun input => input ≠ "")
          runs := by
  induction scanned with
  | nil => exact ⟨[], rfl, List.Forall₂.nil⟩
  | cons text rest ih =>
    obtain ⟨runs, hruns, hall⟩ := ih
    by_cases h1 : (stringsTrimSpace whiteSpace text).utf8ByteSize = 1
    · obtain ⟨r, hr⟩ :=
        generateLetterVariants_returns toASCII caseTable (stringsTrimSpace whiteSpace text) format
      have hne : stringsTrimSpace whiteSpace text ≠ "" :=
        (utf8ByteSize_pos_iff _).mp (by omega)
      refine ⟨LineRun.letter (stringsTrimSpace whiteSpace text) r :: runs, ?_, ?_⟩
      · simp only [scanLoop, h1, if_true, hr, hruns, Option.map_some']
      · simp only [List.map_cons, List.filter_cons, hne, ne_eq, not_false_eq_true,
          decide_True, if_true]
        exact List.Forall₂.cons (Or.inl ⟨h1, r, hr, rfl⟩) hall
    · by_cases h0 : (stringsTrimSpace whiteSpace text).utf8ByteSize > 0
      · obtain ⟨r, hr, -⟩ :=
          generateWordVariants_spec toASCII caseTable (stringsTrimSpace whiteSpace text) format M
        have hne : stringsTrimSpace whiteSpace text ≠ "" := (utf8ByteSize_pos_iff _).mp h0
        refine ⟨LineRun.word (stringsTrimSpace whiteSpace text) r :: runs, ?_, ?_⟩
        · simp only [scanLoop, h1, if_false, h0, if_true, hr, hruns, Option.map_some']
        · simp only [List.map_cons, List.filter_cons, hne, ne_eq, not_false_eq_true,
            decide_True, if_true]
          exact List.Forall₂.cons (Or.inr ⟨h1, r, hr, rfl⟩) hall
      · have he : stringsTrimSpace whiteSpace text = "" := by
          by_contra hne
          exact h0 ((utf8ByteSize_pos_iff _).mpr hne)
        refine ⟨runs, ?_, ?_⟩
        · simp only [scanLoop, h1, if_false, h0, hruns]
        · simp only [List.map_cons, List.filter_cons, he, ne_eq, not_true_eq_false,
            decide_False]
          exact hall

/-- C14 (counterexample). The line `é` is one code point (two bytes in UTF-8):
`handleStdin` passes it to `generateWordVariants`, not to
`generateLetterVariants`. -/
theorem single_code_point_line_processed_as_word :
    "é".length = 1
    ∧ stringsTrimSpace (fun _ => false) "é" = "é"
    ∧ ∃ r, generateWordVariants failingEncoder id "é" "simple" 1000 = some r
        ∧ handleStdin failingEncoder id (fun _ => false) "simple" 1000 ["é"] none
            = some { lines := [LineRun.word "é" r], stderr := [], exitStatus := none } := by
  obtain ⟨r, hr, -⟩ := generateWordVariants_spec failingEncoder id "é" "simple" 1000
  have ht : stringsTrimSpace (fun _ => false) "é" = "é" := by decide
  have hs : ("é" : String).utf8ByteSize = 2 := by decide
  refine ⟨by decide, ht, r, hr, ?_⟩
  simp only [handleStdin, scanLoop, ht, hs, hr]
  simp

/-- C14 (amended). In `handleStdin` every input line is classified after
white-space trimming by its length in bytes: an empty line is skipped, a line
of exactly one byte, that is a single code point below U+0080, is processed by
`generateLetterVariants`, and every other non-empty line is processed by
`generateWordVariants`; the handler runs follow the order of the lines. -/
theorem stdin_lines_classified_by_byte_length (toASCII : String → Option String)
    (caseTable : Char → Char) (whiteSpace : Char → Bool) (format : String) (M : Int)
    (scanned : List String) (scanErr : Option String) :
    (∃ run, handleStdin toASCII caseTable whiteSpace format M scanned scanErr = some run
      ∧ List.Forall₂
          (fun input lineRun =>
            (input.utf8ByteSize = 1
              ∧ ∃ r, generateLetterVariants toASCII caseTable input format = some r
                  ∧ lineRun = LineRun.letter input r)
            ∨ (input.utf8ByteSize ≠ 1
              ∧ ∃ r, generateWordVariants toASCII caseTable input format M = some r
                  ∧ lineRun = LineRun.word input r))
          ((scanned.map (stringsTrimSpace whiteSpace)).filter fun input => input ≠ "")
          run.lines)
    ∧ ∀ input : String,
        input.utf8ByteSize = 1 ↔ ∃ c : Char, input = String.singleton c ∧ c.toNat ≤ 127 := by
  refine ⟨?_, utf8ByteSize_eq_one_iff⟩
  obtain ⟨runs, hruns, hall⟩ := scanLoop_spec toASCII caseTable whiteSpace format M scanned
  unfold handleStdin
  rw [hruns]
  cases scanErr with
  | none => exact ⟨_, rfl, hall⟩
  | some err => exact ⟨_, rfl, hall⟩

/-! ## C15: early exit against the soft filter -/

/-- C15. For every word, cap `M > 0` and encoder, the sequence of results of
the run equals the first `min M S` elements of the soft filter (the full
cross-product enumerated in traversal order, every candidate encoded, the
successful encodings kept in order, `S` their number); the same holds for
`generateCombinations` started at position 0 with a zero count and no
results. -/
theorem early_exit_refines_soft_filter (toASCII : String → Option String)
    (caseTable : Char → Char) (word format : String) (M : Int) (hM : 0 < M) :
    (∃ run, generateWordVariants toASCII caseTable word format M = some run
      ∧ run.results
          = (successfulEncodings toASCII (stringsToLower caseTable word).data).take
              (min M (successfulEncodings toASCII (stringsToLower caseTable word).data).length).toNat
      ∧ (run.results.length : Int)
          = min M (successfulEncodings toASCII (stringsToLower caseTable word).data).length)
    ∧ (∀ (chars : List Char) (st0 : GenState), st0.count = 0 → st0.results = [] →
        ∃ st, generateCombinations toASCII chars 0 "" format M st0 = some st
          ∧ st.results
              = (successfulEncodings toASCII chars).take
                  (min M (successfulEncodings toASCII chars).length).toNat)
    ∧ ∀ chars : List Char,
        successfulEncodings toASCII chars
          = ((cartesian (chars.map choices)).map fun t =>
              encodePunycode toASCII (String.mk t)).filter fun p => p ≠ "" := by
  have key : ∀ l : List String,
      l.take M.toNat = l.take (min M (l.length : Int)).toNat := by
    intro l
    rcases le_total M (l.length : Int) with h | h
    · rw [min_eq_left h]
    · rw [min_eq_right h, Int.toNat_ofNat, List.take_length]
      exact List.take_of_length_le (by omega)
  refine ⟨?_, ?_, ?_⟩
  · obtain ⟨run, hrun, hres, -⟩ := generateWordVariants_spec toASCII caseTable word format M
    refine ⟨run, hrun, by rw [hres]; exact key _, ?_⟩
    rw [hres, List.length_take]
    omega
  · intro chars st0 h0 hr
    obtain ⟨st, hst, hres, -⟩ := generateCombinations_spec toASCII chars format M st0
    refine ⟨st, hst, ?_⟩
    rw [hres, hr, h0, List.nil_append, Int.sub_zero]
    exact key _
  · intro chars
    simp [successfulEncodings, successes, candidates, List.map_map, Function.comp_def]

theorem early_exit_refines_soft_filter_witness :
    (0 : Int) < 2
    ∧ ∃ run, generateWordVariants echoEncoder id "q" "simple" 2 = some run
      ∧ run.results
          = (successfulEncodings echoEncoder (stringsToLower id "q").data).take
              (min (2 : Int)
                (successfulEncodings echoEncoder (stringsToLower id "q").data).length).toNat :=
  ⟨by decide,
    let ⟨run, h1, h2, _⟩ :=
      (early_exit_refines_soft_filter echoEncoder id "q" "simple" 2 (by decide)).1
    ⟨run, h1, h2⟩⟩

/-! ## C16: no encoder call beyond the cap -/

theorem visitedUpTo_eq_take (toASCII : String → Option String) (cs : List String) :
    ∀ k : Nat, 0 < k → k ≤ (successes toASCII cs).length →
      ∃ n, 0 < n ∧ n ≤ cs.length ∧ visitedUpTo toASCII k cs = cs.take n
        ∧ (successes toASCII (cs.take n)).length = k
        ∧ ∃ last, cs[n - 1]? = some last ∧ encodePunycode toASCII last ≠ "" := by
  induction cs with
  | nil => intro k hk hle; simp [successes] at hle; omega
  | cons c cs ih =>
    intro k hk hle
    obtain ⟨j, rfl⟩ : ∃ j, k = j + 1 := ⟨k - 1, by omega⟩
    rw [successes_cons] at hle
    by_cases he : encodePunycode toASCII c = ""
    · simp only [he, ne_eq, not_true_eq_false, if_false] at hle
      obtain ⟨n, hn0, hn, hv, hs, last, hl, hlast⟩ := ih (j + 1) hk hle
      refine ⟨n + 1, by omega, by simp; omega, ?_, ?_, last, ?_, hlast⟩
      · simp [visitedUpTo, he, hv]
      · rw [List.take_succ_cons, successes_cons]
        simp [he, hs]
      · obtain ⟨m, rfl⟩ : ∃ m, n = m + 1 := ⟨n - 1, by omega⟩
        simpa using hl
    · simp only [he, ne_eq, not_false_eq_true, if_true, List.length_cons] at hle
      rcases Nat.eq_zero_or_pos j with hj | hj
      · subst hj
        refine ⟨1, by omega, by simp, ?_, ?_, c, by simp, he⟩
        · simp [visitedUpTo, he, visitedUpTo_zero]
        · simp [successes_cons, he, successes]
      · obtain ⟨n, hn0, hn, hv, hs, last, hl, hlast⟩ := ih j hj (by omega)
        refine ⟨n + 1, by omega, by simp; omega, ?_, ?_, last, ?_, hlast⟩
        · simp [visitedUpTo, he, hv]
        · rw [List.take_succ_cons, successes_cons]
          simp [he, hs]
        · obtain ⟨m, rfl⟩ : ∃ m, n = m + 1 := ⟨n - 1, by omega⟩
          simpa using hl

/-- C16. For every word, cap `M > 0` and encoder such that at least `M`
candidates of the full cross-product encode successfully, the strings passed
to the encoder are exactly the first `n` candidates in traversal order, where
candidate number `n` is the `M`-th one whose encoding succeeds: the trace ends
with it, the final count is `M`, and no candidate after it is encoded. -/
theorem encoder_stops_at_the_cap (toASCII : String → Option String)
    (caseTable : Char → Char) (word format : String) (M : Int) (hM : 0 < M)
    (hS : M ≤ ((successfulEncodings toASCII (stringsToLower caseTable word).data).length : Int)) :
    ∃ run n, generateWordVariants toASCII caseTable word format M = some run
      ∧ 0 < n ∧ n ≤ (candidates (stringsToLower caseTable word).data).length
      ∧ run.encoderCalls = (candidates (stringsToLower caseTable word).data).take n
      ∧ run.encoderCalls.length = n
      ∧ ((successes toASCII ((candidates (stringsToLower caseTable word).data).take n)).length : Int)
          = M
      ∧ (∃ last, (candidates (stringsToLower caseTable word).data)[n - 1]? = some last
          ∧ run.encoderCalls.getLast? = some last
          ∧ encodePunycode toASCII last ≠ "")
      ∧ run.count = M := by
  obtain ⟨run, hrun, hres, hcount, hcalls, -⟩ :=
    generateWordVariants_spec toASCII caseTable word format M
  have hle : M.toNat ≤ (successes toASCII (candidates (stringsToLower caseTable word).data)).length := by
    unfold successfulEncodings at hS
    omega
  obtain ⟨n, hn0, hn, hv, hs, last, hl, hlast⟩ :=
    visitedUpTo_eq_take toASCII _ M.toNat (by omega) hle
  rw [hv] at hcalls
  have hlen : run.encoderCalls.length = n := by
    rw [hcalls, List.length_take]
    omega
  refine ⟨run, n, hrun, hn0, hn, hcalls, hlen, by rw [hs]; omega, ⟨last, hl, ?_, hlast⟩, ?_⟩
  · rw [List.getLast?_eq_getElem?, hlen, hcalls, List.getElem?_take_of_lt (by omega)]
    exact hl
  · rw [hcount, hres, List.length_take]
    unfold successfulEncodings
    omega

theorem encoder_stops_at_the_cap_witness :
    (0 : Int) < 2
    ∧ (2 : Int) ≤ ((successfulEncodings echoEncoder (stringsToLower id "q").data).length : Int)
    ∧ ∃ run, generateWordVariants echoEncoder id "q" "simple" 2 = some run
        ∧ run.count = 2 ∧ 0 < run.encoderCalls.length := by
  have hS : (2 : Int)
      ≤ ((successfulEncodings echoEncoder (stringsToLower id "q").data).length : Int) := by
    decide
  obtain ⟨run, n, h1, h2, -, -, h5, -, -, h8⟩ :=
    encoder_stops_at_the_cap echoEncoder id "q" "simple" 2 (by decide) hS
  exact ⟨by decide, hS, run, h1, h8, by omega⟩

/-! ## C17: the empty word -/

/-- C17. For the empty word and every cap `M > 0`, whenever the encoder does
not produce a non-empty label for the empty string (it reports an error or
returns the empty string), `generateWordVariants` computes
`totalCombinations = 1`, invokes the encoder exactly once, on the empty
string, and emits no result, the final count being 0. -/
theorem empty_word_yields_nothing (toASCII : String → Option String)
    (caseTable : Char → Char) (format : String) (M : Int) (hM : 0 < M)
    (hfail : toASCII "" = none ∨ toASCII "" = some "") :
    ∃ run, generateWordVariants toASCII caseTable "" format M = some run
      ∧ run.totalCombinations = 1
      ∧ run.encoderCalls = [""]
      ∧ run.results = []
      ∧ run.count = 0
      ∧ (format ≠ "json" → format ≠ "detailed" → run.stdout = []) := by
  obtain ⟨run, hrun, hres, hcount, hcalls, htot, hout⟩ :=
    generateWordVariants_spec toASCII caseTable "" format M
  have hl : (stringsToLower caseTable "").data = [] := rfl
  have hc : candidates [] = [""] := rfl
  have he : encodePunycode toASCII "" = "" := by
    unfold encodePunycode
    rcases hfail with h | h <;> rw [h]
  obtain ⟨k, hk⟩ : ∃ k, M.toNat = k + 1 := ⟨M.toNat - 1, by omega⟩
  rw [hl] at hres hcalls htot
  have hres2 : run.results = [] := by
    rw [hres, successfulEncodings, hc, successes_cons]
    simp [he, successes]
  refine ⟨run, hrun, by rw [htot]; rfl, ?_, hres2, by rw [hcount, hres2]; rfl, ?_⟩
  · rw [hcalls, hc, hk]
    simp [visitedUpTo]
  · intro h1 h2
    rw [hout h1 h2, hres2]
    rfl

theorem empty_word_yields_nothing_witness :
    (0 : Int) < 1000
    ∧ (failingEncoder "" = none ∨ failingEncoder "" = some "")
    ∧ ∃ run, generateWordVariants failingEncoder id "" "simple" 1000 = some run
      ∧ run.totalCombinations = 1
      ∧ run.encoderCalls = [""]
      ∧ run.results = []
      ∧ run.count = 0
      ∧ ("simple" ≠ "json" → "simple" ≠ "detailed" → run.stdout = []) :=
  ⟨by decide, Or.inl rfl,
    empty_word_yields_nothing failingEncoder id "simple" 1000 (by decide) (Or.inl rfl)⟩

/-! ## C18: the running count and the emitted results -/

theorem emitResult_stdout (format current punycode : String) (st : GenState) :
    (emitResult format current punycode st).stdout
      = st.stdout ++ resultChunks format st.firstResult current punycode := by
  by_cases h1 : format = "json" <;> by_cases h2 : format = "detailed" <;>
    cases hf : st.firstResult <;> simp [emitResult, resultChunks, h1, h2, hf]

theorem emitResult_firstResult_json (current punycode : String) (st : GenState) :
    (emitResult "json" current punycode st).firstResult = false := by
  cases hf : st.firstResult <;> simp [emitResult, hf]

theorem resultChunks_of_ne_json (format : String) (h : format ≠ "json") (a b : Bool)
    (current punycode : String) :
    resultChunks format a current punycode = resultChunks format b current punycode := by
  simp [resultChunks, h]

theorem renderResults_of_ne_json (format : String) (h : format ≠ "json") (a b : Bool)
    (pairs : List (String × String)) :
    renderResults format a pairs = renderResults format b pairs := by
  cases pairs with
  | nil => rfl
  | cons q rest =>
    obtain ⟨current, punycode⟩ := q
    simp only [renderResults]
    rw [resultChunks_of_ne_json format h a b]

theorem renderResults_snoc (format : String) (pairs : List (String × String))
    (current punycode : String) :
    ∀ first : Bool,
      renderResults format first (pairs ++ [(current, punycode)])
        = renderResults format first pairs
          ++ resultChunks format (first && pairs.isEmpty) current punycode := by
  induction pairs with
  | nil => intro first; simp [renderResults]
  | cons q rest ih =>
    intro first
    obtain ⟨c, p⟩ := q
    simp [renderResults, ih false]

theorem visit_consistent (toASCII : String → Option String) (format : String) (M : Int)
    (before : List String) (st : GenState) (candidate : String)
    (h : Consistent format before st) :
    Consistent format before (visit toASCII format M st candidate) := by
  unfold visit
  by_cases hc : st.count ≥ M
  · rw [if_pos hc]; exact h
  · rw [if_neg hc]
    obtain ⟨pairs, hres, hcount, hout, hfirst⟩ := h
    unfold encodeCandidate
    by_cases he : encodePunycode toASCII candidate = ""
    · simp only [he, ne_eq, not_true_eq_false, if_false]
      exact ⟨pairs, hres, hcount, hout, hfirst⟩
    · simp only [he, ne_eq, not_false_eq_true, if_true]
      refine ⟨pairs ++ [(candidate, encodePunycode toASCII candidate)], ?_, ?_, ?_, ?_⟩
      · rw [emitResult_results]; simp [hres]
      · rw [emitResult_count]; simp [hcount]
      · rw [emitResult_stdout, renderResults_snoc]
        simp only [hout, List.append_assoc, Bool.true_and]
        congr 2
        by_cases hj : format = "json"
        · have hb : st.firstResult = pairs.isEmpty := by
            cases hf : st.firstResult
            · have : ¬ pairs = [] := fun hp => by
                have := (hfirst hj).mpr hp
                rw [hf] at this
                cases this
              cases pairs with
              | nil => exact absurd rfl this
              | cons _ _ => rfl
            · rw [(hfirst hj).mp hf]; rfl
          rw [hb]
        · exact resultChunks_of_ne_json format hj _ _ _ _
      · intro hj
        subst hj
        rw [emitResult_firstResult_json]
        simp

theorem foldl_visit_consistent (toASCII : String → Option String) (format : String) (M : Int)
    (before : List String) (cs : List String) :
    ∀ st : GenState, Consistent format before st →
      Consistent format before (cs.foldl (visit toASCII format M) st) := by
  induction cs with
  | nil => intro st h; exact h
  | cons c cs ih =>
    intro st h
    exact ih _ (visit_consistent toASCII format M before st c h)

theorem result_chunk_ne_separator (punycode : String) :
    ("    \"" ++ punycode ++ "\"" : String) ≠ ",\n" := by
  intro h
  have := congrArg String.data h
  simp [String.data_append] at this

theorem length_result_items (format : String) (pairs : List (String × String)) :
    ∀ first : Bool,
      ((renderResults format first pairs).filter (isResultItem format)).length = pairs.length := by
  induction pairs with
  | nil => intro first; rfl
  | cons q rest ih =>
    intro first
    obtain ⟨c, p⟩ := q
    simp only [renderResults, List.filter_append, List.length_append, List.length_cons, ih false]
    by_cases hj : format = "json"
    · subst hj
      cases first <;>
        simp [resultChunks, isResultItem, result_chunk_ne_separator, Nat.add_comm]
    · by_cases hd : format = "detailed" <;>
        simp [resultChunks, isResultItem, hj, hd, Nat.add_comm]

theorem consistent_meaning (format : String) (before : List String) (st : GenState)
    (h : Consistent format before st) :
    st.count = (st.results.length : Int)
      ∧ ∃ items, st.stdout = before ++ items
          ∧ (items.filter (isResultItem format)).length = st.results.length := by
  obtain ⟨pairs, hres, hcount, hout, -⟩ := h
  refine ⟨by rw [hcount, hres, List.length_map], _, hout, ?_⟩
  rw [length_result_items, hres, List.length_map]

/-- C18. The running count is kept equal to the number of accumulated results
and to the number of result items written: every call of `generateCombinations`
(at any position up to the length, from any state in which this holds) returns
a state in which it holds again, and it holds in the state
`generateWordVariants` starts from. Hence after the run the count equals the
length of the result list, standard output is the header, then exactly one
result item per result, then the footer, and the trailing total printed in
the `detailed` and `json` formats is the number of emitted results. -/
theorem running_count_equals_emitted_results (toASCII : String → Option String)
    (caseTable : Char → Char) (word format : String) (M : Int) :
    (∀ (chars : List Char) (pos : Nat) (current : String) (before : List String) (st : GenState),
        pos ≤ chars.length → Consistent format before st →
          ∃ st1, generateCombinations toASCII chars pos current format M st = some st1
            ∧ Consistent format before st1)
    ∧ (∀ (before : List String) (st : GenState), Consistent format before st →
        st.count = (st.results.length : Int)
          ∧ ∃ items, st.stdout = before ++ items
              ∧ (items.filter (isResultItem format)).length = st.results.length)
    ∧ ∃ run, generateWordVariants toASCII caseTable word format M = some run
        ∧ run.count = (run.results.length : Int)
        ∧ ∃ items,
            run.stdout
              = wordHeader word format M run.totalCombinations ++ items
                ++ wordFooter format (run.results.length : Int)
            ∧ (items.filter (isResultItem format)).length = run.results.length := by
  refine ⟨?_, consistent_meaning format, ?_⟩
  · intro chars pos current before st hpos hcons
    rw [generateCombinations_eq_foldl toASCII chars format M (chars.length - pos) pos current st
      (by omega)]
    exact ⟨_, rfl, foldl_visit_consistent toASCII format M before _ st hcons⟩
  · have h0 : Consistent format
        (wordHeader word format M (totalCombinations (stringsToLower caseTable word).data))
        { count := 0, results := [], firstResult := true,
          stdout := wordHeader word format M
            (totalCombinations (stringsToLower caseTable word).data),
          encoderCalls := [] } :=
      ⟨[], rfl, rfl, by simp [renderResults], fun _ => ⟨fun _ => rfl, fun _ => rfl⟩⟩
    have hfin := foldl_visit_consistent toASCII format M _
      (candidatesFrom ((stringsToLower caseTable word).data.drop 0) "") _ h0
    obtain ⟨hcount, items, hout, hitems⟩ := consistent_meaning format _ _ hfin
    unfold generateWordVariants
    simp only []
    rw [generateCombinations_eq_foldl toASCII _ format M
      (stringsToLower caseTable word).data.length 0 "" _ (by simp)]
    rw [← wordHeader]
    refine ⟨_, rfl, hcount, items, ?_, hitems⟩
    simp only []
    rw [hout, hcount]
    rfl

theorem running_count_equals_emitted_results_witness :
    (0 : Nat) ≤ "ab".data.length
    ∧ Consistent "json" []
        { count := 0, results := [], firstResult := true, stdout := [], encoderCalls := [] }
    ∧ ∃ st1, generateCombinations echoEncoder "ab".data 0 "" "json" 3
          { count := 0, results := [], firstResult := true, stdout := [], encoderCalls := [] }
          = some st1
        ∧ Consistent "json" [] st1 :=
  have h0 : Consistent "json" []
      { count := 0, results := [], firstResult := true, stdout := [], encoderCalls := [] } :=
    ⟨[], rfl, rfl, rfl, fun _ => ⟨fun _ => rfl, fun _ => rfl⟩⟩
  ⟨by decide, h0,
    (running_count_equals_emitted_results echoEncoder id "ab" "json" 3).1 "ab".data 0 "" [] _
      (by decide) h0⟩

/-! ## C19: termination and index bounds -/

/-- C19. For every character sequence, every start position `pos ≤
len(chars)`, every cap and every state, `generateCombinations` returns a state:
the recursion (well-founded on `len(chars) - pos`) ends and the model never
reaches the index panic, so `chars[pos]` is only evaluated with `pos <
len(chars)`. Below the cap and before the end, a call at `pos` makes its
recursive calls at `pos + 1` only, where the measure `len(chars) - pos` is
strictly smaller; the panic is reached only from a start position beyond the
length. -/
theorem generateCombinations_terminates_in_bounds (toASCII : String → Option String)
    (chars : List Char) (format : String) (M : Int) :
    (∀ (pos : Nat) (current : String) (st : GenState), pos ≤ chars.length →
        ∃ st1, generateCombinations toASCII chars pos current format M st = some st1)
    ∧ (∀ (pos : Nat) (current : String) (st : GenState) (h : pos < chars.length),
        ¬ st.count ≥ M →
          generateCombinations toASCII chars pos current format M st
              = (match generateCombinations toASCII chars (pos + 1) (current.push chars[pos])
                    format M st with
                  | none => none
                  | some st1 =>
                    match homoglyphs chars[pos] with
                    | some variants =>
                      variants.foldlM
                        (fun s variant =>
                          generateCombinations toASCII chars (pos + 1) (current.push variant)
                            format M s)
                        st1
                    | none => some st1)
            ∧ chars.length - (pos + 1) < chars.length - pos
            ∧ pos + 1 ≤ chars.length)
    ∧ (∀ (pos : Nat) (current : String) (st : GenState), chars.length < pos →
        ¬ st.count ≥ M →
          generateCombinations toASCII chars pos current format M st = none) := by
  refine ⟨?_, ?_, ?_⟩
  · intro pos current st hpos
    exact ⟨_, generateCombinations_eq_foldl toASCII chars format M (chars.length - pos) pos
      current st (by omega)⟩
  · intro pos current st h hc
    refine ⟨?_, by omega, by omega⟩
    rw [generateCombinations]
    have hne : pos ≠ chars.length := by omega
    simp only [hc, hne, h, if_false, dite_true]
  · intro pos current st h hc
    rw [generateCombinations]
    have hne : pos ≠ chars.length := by omega
    have hnl : ¬ pos < chars.length := by omega
    simp only [hc, hne, hnl, if_false, dite_false]

theorem generateCombinations_terminates_in_bounds_witness :
    (1 : Nat) ≤ "ab".data.length
    ∧ ∃ st1, generateCombinations echoEncoder "ab".data 1 "a" "simple" 5
          { count := 0, results := [], firstResult := true, stdout := [], encoderCalls := [] }
          = some st1 :=
  ⟨by decide,
    (generateCombinations_terminates_in_bounds echoEncoder "ab".data "simple" 5).1 1 "a" _
      (by decide)⟩

end Punygen
